import Mathlib

/-!
Shallow embedding of the minesweeper knowledge engine (`solver.py`) and proofs
of the specification's testable properties.

Conventions of the embedding:
* Python ints are `Int` (coordinates) and `Nat` (cell knowledge values,
  counters); the knowledge array and the `is_dirty` array become total
  functions `Int → Int → _` that are only ever written at in-bounds
  coordinates, exactly as the numpy arrays are.
* Python exceptions and failed `assert` statements become the `Except`
  error branch; since Python mutation is not rolled back when an exception
  propagates, the error value carries the state at the moment it was raised.
* The external `mineField.MineField` oracle (not part of the repository) is
  a parameter `field : Oracle`, returning `none` for an
  `ExplosionException` and `some n` for a swept neighbour-mine count.
* `assert` statements whose condition restates a fact the caller has just
  established (the in-bounds asserts on already-filtered neighbour lists)
  are modelled at the call-sites that can actually fail.
-/

namespace Minesweeper

/-- Knowledge value for cells inferred to contain a mine (`CELL_FLAGGED`). -/
def CELL_FLAGGED : Nat := 100

/-- Knowledge value for cells with no information yet (`CELL_UNKNOWN`). -/
def CELL_UNKNOWN : Nat := 200

/-- The mutable state of the `Solver` object: game dimensions, the
`knowledge` array, the `is_dirty` array and the `dirty_queue` list. -/
structure SolverState where
  width : Int
  height : Int
  number_of_mines : Nat
  knowledge : Int → Int → Nat
  is_dirty : Int → Int → Bool
  dirty_queue : List (Int × Int)

/-- Failure modes: a raised `ExplosionException`, or a failed `assert`. -/
inductive SolveErr where
  | explosion : SolveErr
  | assertFail : SolveErr
deriving DecidableEq

/-- Result of a state-mutating operation.  Errors carry the state at the
moment the exception was raised, since Python does not roll back mutation. -/
abbrev Exc (α : Type) := Except (SolveErr × SolverState) α

/-- The external mine-field oracle: `none` models an `ExplosionException`
raised by `mineField.sweep_cell`, `some n` a returned count. -/
def Oracle : Type := Int → Int → Option Nat

/-- Pointwise update of a two-argument function (one numpy array write). -/
def updateFun {α : Type} (f : Int → Int → α) (column row : Int) (v : α) :
    Int → Int → α :=
  fun c r => if c = column ∧ r = row then v else f c r

/-- The state carried by a result, whether normal or exceptional. -/
def resState : Exc SolverState → SolverState
  | .ok s => s
  | .error (_, s) => s

/-- Whether an operation completed without raising. -/
def excIsOk {α : Type} : Exc α → Bool
  | .ok _ => true
  | .error _ => false

/-- `Solver.__init__`: all cells unknown, nothing dirty, empty queue. -/
def mkSolver (width height : Int) (number_of_mines : Nat) : SolverState :=
  { width := width, height := height, number_of_mines := number_of_mines,
    knowledge := fun _ _ => CELL_UNKNOWN,
    is_dirty := fun _ _ => false,
    dirty_queue := [] }

/-- The bounds test of `Solver.is_in_bounds`, as a function of the grid
dimensions (shared with the board-oracle model below). -/
def is_in_bounds_wh (w h : Int) (column row : Int) : Bool :=
  (column ≥ 0) && (row ≥ 0) && (column < w) && (row < h)

/-- `Solver.is_in_bounds`. -/
def is_in_bounds (s : SolverState) (column row : Int) : Bool :=
  is_in_bounds_wh s.width s.height column row

/-- The eight Moore-neighbour coordinates in source order (east,
north-east, north, north-west, west, south-west, south, south-east). -/
def mooreOffsets (column row : Int) : List (Int × Int) :=
  [(column + 1, row), (column + 1, row - 1), (column, row - 1),
   (column - 1, row - 1), (column - 1, row), (column - 1, row + 1),
   (column, row + 1), (column + 1, row + 1)]

/-- `Solver.neighbours`: the Moore neighbours filtered to those in bounds. -/
def neighbours (s : SolverState) (column row : Int) : List (Int × Int) :=
  (mooreOffsets column row).filter
    (fun coordinate => is_in_bounds s coordinate.1 coordinate.2)

/-- The same neighbour list as a function of the grid dimensions only;
used by the board-oracle model. -/
def boardNeighbours (w h : Int) (column row : Int) : List (Int × Int) :=
  (mooreOffsets column row).filter
    (fun coordinate => is_in_bounds_wh w h coordinate.1 coordinate.2)

/-- The accumulating loop of `Solver.count_neighbours`; the `assert` on a
knowledge value outside `{0..8, CELL_FLAGGED, CELL_UNKNOWN}` is the error
branch. -/
def countLoop (s : SolverState) :
    List (Int × Int) → Nat → Nat → Exc (Nat × Nat)
  | [], nUnknown, nMines => .ok (nUnknown, nMines)
  | y :: rest, nUnknown, nMines =>
    if s.knowledge y.1 y.2 = CELL_FLAGGED then
      countLoop s rest nUnknown (nMines + 1)
    else if s.knowledge y.1 y.2 = CELL_UNKNOWN then
      countLoop s rest (nUnknown + 1) nMines
    else if s.knowledge y.1 y.2 ≤ 8 then
      countLoop s rest nUnknown nMines
    else
      .error (.assertFail, s)

/-- `Solver.count_neighbours`: returns
`(N_unknown_neighbours, N_found_neighbour_mines)`. -/
def count_neighbours (s : SolverState) (column row : Int) : Exc (Nat × Nat) :=
  if is_in_bounds s column row = true then
    countLoop s (neighbours s column row) 0 0
  else
    .error (.assertFail, s)

/-- `Solver.mark_dirty`: set the membership flag and append to the queue. -/
def mark_dirty (s : SolverState) (column row : Int) : Exc SolverState :=
  if is_in_bounds s column row = true then
    .ok { s with is_dirty := updateFun s.is_dirty column row true,
                 dirty_queue := s.dirty_queue ++ [(column, row)] }
  else
    .error (.assertFail, s)

/-- The loop of `Solver.mark_neighbourhood_dirty` over the neighbour list. -/
def markDirtyList : SolverState → List (Int × Int) → Exc SolverState
  | s, [] => .ok s
  | s, y :: rest =>
    match mark_dirty s y.1 y.2 with
    | .error e => .error e
    | .ok s1 => markDirtyList s1 rest

/-- `Solver.mark_neighbourhood_dirty`: mark the cell and its neighbours. -/
def mark_neighbourhood_dirty (s : SolverState) (column row : Int) :
    Exc SolverState :=
  if is_in_bounds s column row = true then
    match mark_dirty s column row with
    | .error e => .error e
    | .ok s1 => markDirtyList s1 (neighbours s1 column row)
  else
    .error (.assertFail, s)

/-- `Solver.sweep_unknown_cell`: assert in bounds and unknown, query the
oracle (raising on a mine), store the count, dirty the neighbourhood. -/
def sweep_unknown_cell (field : Oracle) (s : SolverState) (column row : Int) :
    Exc SolverState :=
  if is_in_bounds s column row = true then
    if s.knowledge column row = CELL_UNKNOWN then
      match field column row with
      | none => .error (.explosion, s)
      | some n =>
        mark_neighbourhood_dirty
          { s with knowledge := updateFun s.knowledge column row n }
          column row
    else
      .error (.assertFail, s)
  else
    .error (.assertFail, s)

/-- `Solver.flag_unknown_cell`: assert in bounds and unknown, store
`CELL_FLAGGED`, dirty the neighbourhood.  Never queries the oracle. -/
def flag_unknown_cell (s : SolverState) (column row : Int) :
    Exc SolverState :=
  if is_in_bounds s column row = true then
    if s.knowledge column row = CELL_UNKNOWN then
      mark_neighbourhood_dirty
        { s with knowledge := updateFun s.knowledge column row CELL_FLAGGED }
        column row
    else
      .error (.assertFail, s)
  else
    .error (.assertFail, s)

/-- The loop of `Solver.sweep_unknown_neighbours`: sweep each listed cell
that is currently unknown. -/
def sweepList (field : Oracle) : SolverState → List (Int × Int) →
    Exc SolverState
  | s, [] => .ok s
  | s, y :: rest =>
    if s.knowledge y.1 y.2 = CELL_UNKNOWN then
      match sweep_unknown_cell field s y.1 y.2 with
      | .error e => .error e
      | .ok s1 => sweepList field s1 rest
    else
      sweepList field s rest

/-- `Solver.sweep_unknown_neighbours`. -/
def sweep_unknown_neighbours (field : Oracle) (s : SolverState)
    (column row : Int) : Exc SolverState :=
  if is_in_bounds s column row = true then
    sweepList field s (neighbours s column row)
  else
    .error (.assertFail, s)

/-- The loop of `Solver.flag_unknown_neighbours`: flag each listed cell
that is currently unknown. -/
def flagList : SolverState → List (Int × Int) → Exc SolverState
  | s, [] => .ok s
  | s, y :: rest =>
    if s.knowledge y.1 y.2 = CELL_UNKNOWN then
      match flag_unknown_cell s y.1 y.2 with
      | .error e => .error e
      | .ok s1 => flagList s1 rest
    else
      flagList s rest

/-- `Solver.flag_unknown_neighbours`. -/
def flag_unknown_neighbours (s : SolverState) (column row : Int) :
    Exc SolverState :=
  if is_in_bounds s column row = true then
    flagList s (neighbours s column row)
  else
    .error (.assertFail, s)

/-- The dispatch on `current_cell_knowledge` inside `Solver.check_cell`:
no-ops for `CELL_FLAGGED`, `CELL_UNKNOWN` and out-of-range values (the
latter only prints), and the deduction rule for a revealed count: sweep
all unknown neighbours when no hidden mine remains, flag them all when
every one must be a mine, `assert(False)` on the impossible surplus. -/
def check_cell_step (field : Oracle) (s : SolverState) (column row : Int) :
    Exc SolverState :=
  if s.knowledge column row = CELL_FLAGGED then .ok s
  else if s.knowledge column row = CELL_UNKNOWN then .ok s
  else if s.knowledge column row ≤ 8 then
    match count_neighbours s column row with
    | .error e => .error e
    | .ok (nUnknown, nMines) =>
      if (s.knowledge column row : Int) - (nMines : Int) = 0 then
        sweep_unknown_neighbours field s column row
      else if (s.knowledge column row : Int) - (nMines : Int)
          < (nUnknown : Int) then
        .ok s
      else if (s.knowledge column row : Int) - (nMines : Int)
          = (nUnknown : Int) then
        flag_unknown_neighbours s column row
      else
        .error (.assertFail, s)
  else
    .ok s

/-- `Solver.check_cell`: skip if clean, otherwise run the deduction
dispatch and finally clear the cell's own dirty flag.  The clearing line
is skipped when an exception propagates, exactly as in Python. -/
def check_cell (field : Oracle) (s : SolverState) (column row : Int) :
    Exc SolverState :=
  if is_in_bounds s column row = true then
    if s.is_dirty column row = false then
      .ok s
    else
      match check_cell_step field s column row with
      | .error e => .error e
      | .ok s1 =>
        .ok { s1 with is_dirty := updateFun s1.is_dirty column row false }
  else
    .error (.assertFail, s)

/-- All in-bounds coordinates of a `width × height` grid, column-major. -/
def cellList (w h : Int) : List (Int × Int) :=
  (List.range w.toNat).flatMap
    (fun c => (List.range h.toNat).map (fun r => (Int.ofNat c, Int.ofNat r)))

/-- `np.sum(self.is_dirty)`: the number of set membership flags. -/
def dirtyTotal (s : SolverState) : Nat :=
  (cellList s.width s.height).countP (fun p => s.is_dirty p.1 p.2)

/-- The number of in-bounds cells whose knowledge is still `CELL_UNKNOWN`;
part of the termination measure of the propagation loop. -/
def unknownTotal (s : SolverState) : Nat :=
  (cellList s.width s.height).countP
    (fun p => s.knowledge p.1 p.2 == CELL_UNKNOWN)

/-- The number of in-bounds cells whose knowledge is `CELL_FLAGGED`. -/
def flaggedTotal (s : SolverState) : Nat :=
  (cellList s.width s.height).countP
    (fun p => s.knowledge p.1 p.2 == CELL_FLAGGED)

/-- Termination measure for `process_queue`: every loop iteration strictly
decreases `9 * unknownTotal + |dirty_queue|`. -/
def meas (s : SolverState) : Nat :=
  9 * unknownTotal s + s.dirty_queue.length

/-- `Solver.process_queue`, fuelled: pop the last queued coordinate
(Python `list.pop()`), run `check_cell`, repeat; when the queue empties,
`assert` that every membership flag is clear.  `none` means the fuel ran
out before the loop finished. -/
def process_queue_fuel (field : Oracle) :
    Nat → SolverState → Option (Exc SolverState)
  | 0, _ => none
  | fuel + 1, s =>
    if s.dirty_queue = [] then
      some (if dirtyTotal s = 0 then .ok s else .error (.assertFail, s))
    else
      match check_cell field { s with dirty_queue := s.dirty_queue.dropLast }
          (s.dirty_queue.getLastD (0, 0)).1
          (s.dirty_queue.getLastD (0, 0)).2 with
      | .error e => some (.error e)
      | .ok s2 => process_queue_fuel field fuel s2

/-- `Solver.process_queue` with the provably sufficient fuel `meas + 1`. -/
def process_queue (field : Oracle) (s : SolverState) :
    Option (Exc SolverState) :=
  process_queue_fuel field (meas s + 1) s

/-- The list built by `Solver.sample_random_unknown`: all unknown cells in
row-major order. -/
def unknown_list (s : SolverState) : List (Int × Int) :=
  (List.range s.height.toNat).flatMap
    (fun row => (List.range s.width.toNat).filterMap
      (fun column =>
        if s.knowledge (Int.ofNat column) (Int.ofNat row) = CELL_UNKNOWN then
          some (Int.ofNat column, Int.ofNat row)
        else
          none))

/-- `Solver.sample_random_unknown`, with `random.randrange` modelled by an
injected index (reduced mod the list length). -/
def sample_random_unknown (s : SolverState) (randomIndex : Nat) :
    Option (Int × Int) :=
  if (unknown_list s).length = 0 then none
  else
    some ((unknown_list s).getD (randomIndex % (unknown_list s).length) (0, 0))

/-- Terminal outcomes of a solve attempt: solved, lost to an explosion on
a random guess, or crashed on a failed internal `assert`. -/
inductive Outcome where
  | solved : Outcome
  | lost : Outcome
  | crashed : Outcome
deriving DecidableEq

/-- `Solver.solve`, fuelled, with the random choices injected as `picks`:
guess a random unknown cell, sweep it (an explosion ends the attempt as
lost with the knowledge state intact), then drain the queue; repeat until
no unknown cell remains. -/
def solve_fuel (field : Oracle) (picks : Nat → Nat) :
    Nat → SolverState → Option (Outcome × SolverState)
  | 0, _ => none
  | fuel + 1, s =>
    match sample_random_unknown s (picks fuel) with
    | none => some (.solved, s)
    | some g =>
      match sweep_unknown_cell field s g.1 g.2 with
      | .error (.explosion, s1) => some (.lost, s1)
      | .error (.assertFail, s1) => some (.crashed, s1)
      | .ok s1 =>
        match process_queue field s1 with
        | none => none
        | some (.error (_, s2)) => some (.crashed, s2)
        | some (.ok s2) => solve_fuel field picks fuel s2

/-! ## Basic helper lemmas -/

theorem updateFun_same {α : Type} (f : Int → Int → α) (column row : Int)
    (v : α) : updateFun f column row v column row = v := by
  simp [updateFun]

theorem updateFun_other {α : Type} (f : Int → Int → α) (column row c r : Int)
    (v : α) (h : ¬(c = column ∧ r = row)) :
    updateFun f column row v c r = f c r := by
  simp only [updateFun, if_neg h]

theorem mem_neighbours_bounds {s : SolverState} {y : Int × Int} {c r : Int}
    (h : y ∈ neighbours s c r) : is_in_bounds s y.1 y.2 = true :=
  (List.mem_filter.mp h).2

theorem neighbours_length_le (s : SolverState) (c r : Int) :
    (neighbours s c r).length ≤ 8 :=
  le_trans (List.length_filter_le _ _) (by simp [mooreOffsets])

theorem mooreOffsets_nodup (c r : Int) : (mooreOffsets c r).Nodup := by
  unfold mooreOffsets
  simp only [List.nodup_cons, List.mem_cons, List.not_mem_nil, or_false,
    List.nodup_nil, and_true, Prod.mk.injEq, not_or]
  norm_num
  omega

theorem neighbours_nodup (s : SolverState) (c r : Int) :
    (neighbours s c r).Nodup :=
  List.Nodup.filter _ (mooreOffsets_nodup c r)

theorem neighbours_eq_board (s : SolverState) (c r : Int) :
    neighbours s c r = boardNeighbours s.width s.height c r := rfl

theorem is_in_bounds_congr {s s' : SolverState} (hw : s'.width = s.width)
    (hh : s'.height = s.height) (c r : Int) :
    is_in_bounds s' c r = is_in_bounds s c r := by
  simp [is_in_bounds, is_in_bounds_wh, hw, hh]

theorem neighbours_congr {s s' : SolverState} (hw : s'.width = s.width)
    (hh : s'.height = s.height) (c r : Int) :
    neighbours s' c r = neighbours s c r := by
  simp only [neighbours]
  congr 1
  funext y
  exact is_in_bounds_congr hw hh y.1 y.2

theorem mem_range_map {α : Type} (n : Nat) (g : Nat → α) (x : α) :
    x ∈ (List.range n).map g ↔ ∃ k, k < n ∧ g k = x := by
  rw [List.mem_map]
  constructor
  · rintro ⟨a, ha, rfl⟩
    exact ⟨a, List.mem_range.mp ha, rfl⟩
  · rintro ⟨k, hk, rfl⟩
    exact ⟨k, List.mem_range.mpr hk, rfl⟩

theorem mem_cellList {w h : Int} {p : Int × Int} :
    p ∈ cellList w h ↔ 0 ≤ p.1 ∧ 0 ≤ p.2 ∧ p.1 < w ∧ p.2 < h := by
  obtain ⟨c, r⟩ := p
  unfold cellList
  rw [List.mem_flatMap]
  constructor
  · rintro ⟨c', hc', hm⟩
    rw [mem_range_map] at hm
    obtain ⟨r', hr', heq⟩ := hm
    rw [List.mem_range] at hc'
    injection heq with e1 e2
    simp only [Int.ofNat_eq_coe] at e1 e2
    omega
  · rintro ⟨h1, h2, h3, h4⟩
    refine ⟨c.toNat, List.mem_range.mpr (by omega), ?_⟩
    rw [mem_range_map]
    refine ⟨r.toNat, by omega, ?_⟩
    simp only [Int.ofNat_eq_coe]
    rw [Int.toNat_of_nonneg h1, Int.toNat_of_nonneg h2]

theorem is_in_bounds_iff {s : SolverState} {c r : Int} :
    is_in_bounds s c r = true ↔
      0 ≤ c ∧ 0 ≤ r ∧ c < s.width ∧ r < s.height := by
  simp [is_in_bounds, is_in_bounds_wh, and_assoc]

theorem mem_cellList_bounds {s : SolverState} {p : Int × Int} :
    p ∈ cellList s.width s.height ↔ is_in_bounds s p.1 p.2 = true := by
  rw [mem_cellList, is_in_bounds_iff]

/-! ## Counting helper lemmas -/

theorem countP_le_of_imp {α : Type} (p q : α → Bool) :
    ∀ l : List α, (∀ a ∈ l, p a = true → q a = true) →
      l.countP p ≤ l.countP q := by
  intro l
  induction l with
  | nil => intro _; simp
  | cons a l ih =>
    intro h
    simp only [List.countP_cons]
    have h1 := h a (by simp)
    have h2 := ih (fun b hb => h b (by simp [hb]))
    by_cases hp : p a = true
    · simp [hp, h1 hp]; omega
    · simp only [Bool.not_eq_true] at hp
      simp [hp]; split <;> omega

theorem countP_lt_of_mem {α : Type} (p q : α → Bool) :
    ∀ l : List α, (∀ a ∈ l, p a = true → q a = true) →
      ∀ a ∈ l, p a = false → q a = true → l.countP p < l.countP q := by
  intro l
  induction l with
  | nil => intro _ a ha; simp at ha
  | cons b l ih =>
    intro h a ha hpa hqa
    simp only [List.countP_cons]
    rcases List.mem_cons.mp ha with rfl | ha'
    · have := countP_le_of_imp p q l (fun x hx => h x (by simp [hx]))
      simp [hpa, hqa]; omega
    · have := ih (fun x hx => h x (by simp [hx])) a ha' hpa hqa
      have h1 := h b (by simp)
      by_cases hp : p b = true
      · simp [hp, h1 hp]; omega
      · simp only [Bool.not_eq_true] at hp
        simp [hp]; split <;> omega

theorem countP_pointwise {α : Type} (p q : α → Bool) :
    ∀ l : List α, (∀ a ∈ l, p a = true → q a = true) →
      l.countP q ≤ l.countP p → ∀ a ∈ l, q a = true → p a = true := by
  intro l hmono hle a ha hqa
  by_contra hpa
  simp only [Bool.not_eq_true] at hpa
  exact absurd hle (not_le.mpr (countP_lt_of_mem p q l hmono a ha hpa hqa))

theorem countP_eq_add {α : Type} (p q₁ q₂ : α → Bool) :
    ∀ l : List α,
      (∀ a ∈ l, (if p a then (1 : Nat) else 0) =
        (if q₁ a then 1 else 0) + (if q₂ a then 1 else 0)) →
      l.countP p = l.countP q₁ + l.countP q₂ := by
  intro l
  induction l with
  | nil => intro _; simp
  | cons a l ih =>
    intro h
    simp only [List.countP_cons]
    have h1 := h a (by simp)
    have h2 := ih (fun b hb => h b (by simp [hb]))
    omega

/-! ## Structural facts about the operations

`Steps s s'` records what any of the marking / sweeping / flagging /
checking operations can do to the state: the grid shape is fixed, only
`CELL_UNKNOWN` cells ever change knowledge, the queue only grows by
appends, and a newly set dirty flag always comes with a queue entry. -/

def Steps (s s' : SolverState) : Prop :=
  (s'.width = s.width ∧ s'.height = s.height ∧
    s'.number_of_mines = s.number_of_mines) ∧
  (∀ c r, s.knowledge c r ≠ CELL_UNKNOWN → s'.knowledge c r = s.knowledge c r) ∧
  (∃ t, s'.dirty_queue = s.dirty_queue ++ t) ∧
  (∀ c r, s'.is_dirty c r = true →
    s.is_dirty c r = true ∨ (c, r) ∈ s'.dirty_queue)

theorem steps_refl (s : SolverState) : Steps s s :=
  ⟨⟨rfl, rfl, rfl⟩, fun _ _ _ => rfl, ⟨[], by simp⟩, fun _ _ h => .inl h⟩

theorem steps_trans {s₁ s₂ s₃ : SolverState} (h1 : Steps s₁ s₂)
    (h2 : Steps s₂ s₃) : Steps s₁ s₃ := by
  obtain ⟨⟨w1, h1', m1⟩, k1, ⟨t1, q1⟩, d1⟩ := h1
  obtain ⟨⟨w2, h2', m2⟩, k2, ⟨t2, q2⟩, d2⟩ := h2
  refine ⟨⟨w2.trans w1, h2'.trans h1', m2.trans m1⟩, ?_, ⟨t1 ++ t2, by
    rw [q2, q1, List.append_assoc]⟩, ?_⟩
  · intro c r h
    rw [k2 c r (by rw [k1 c r h]; exact h), k1 c r h]
  · intro c r h
    rcases d2 c r h with h' | h'
    · rcases d1 c r h' with h'' | h''
      · exact .inl h''
      · exact .inr (by rw [q2]; exact List.mem_append_left _ h'')
    · exact .inr h'

theorem steps_mark_dirty (s : SolverState) (c r : Int) :
    Steps s (resState (mark_dirty s c r)) := by
  unfold mark_dirty
  split
  · refine ⟨⟨rfl, rfl, rfl⟩, fun _ _ _ => rfl, ⟨[(c, r)], rfl⟩, ?_⟩
    intro c' r' h
    simp only [resState] at h ⊢
    by_cases hc : c' = c ∧ r' = r
    · right
      obtain ⟨rfl, rfl⟩ := hc
      simp
    · left
      rwa [updateFun_other _ _ _ _ _ _ hc] at h
  · exact steps_refl s

theorem mark_dirty_knowledge (s : SolverState) (c r : Int) :
    (resState (mark_dirty s c r)).knowledge = s.knowledge := by
  unfold mark_dirty
  split <;> rfl

theorem markDirtyList_knowledge (L : List (Int × Int)) :
    ∀ s : SolverState, (resState (markDirtyList s L)).knowledge = s.knowledge := by
  induction L with
  | nil => intro s; rfl
  | cons y rest ih =>
    intro s
    simp only [markDirtyList]
    cases h : mark_dirty s y.1 y.2 with
    | error e =>
      have := mark_dirty_knowledge s y.1 y.2
      rw [h] at this
      exact this
    | ok s1 =>
      have := mark_dirty_knowledge s y.1 y.2
      rw [h] at this
      simp only [resState] at this
      rw [ih s1, this]

theorem steps_markDirtyList (L : List (Int × Int)) :
    ∀ s : SolverState, Steps s (resState (markDirtyList s L)) := by
  induction L with
  | nil => intro s; exact steps_refl s
  | cons y rest ih =>
    intro s
    simp only [markDirtyList]
    cases h : mark_dirty s y.1 y.2 with
    | error e =>
      have := steps_mark_dirty s y.1 y.2
      rwa [h] at this
    | ok s1 =>
      have h1 := steps_mark_dirty s y.1 y.2
      rw [h] at h1
      exact steps_trans h1 (ih s1)

theorem steps_mark_neighbourhood_dirty (s : SolverState) (c r : Int) :
    Steps s (resState (mark_neighbourhood_dirty s c r)) := by
  unfold mark_neighbourhood_dirty
  split
  · cases h : mark_dirty s c r with
    | error e =>
      have := steps_mark_dirty s c r
      rwa [h] at this
    | ok s1 =>
      have h1 := steps_mark_dirty s c r
      rw [h] at h1
      exact steps_trans h1 (steps_markDirtyList _ s1)
  · exact steps_refl s

theorem mark_neighbourhood_dirty_knowledge (s : SolverState) (c r : Int) :
    (resState (mark_neighbourhood_dirty s c r)).knowledge = s.knowledge := by
  unfold mark_neighbourhood_dirty
  split
  · cases h : mark_dirty s c r with
    | error e =>
      have := mark_dirty_knowledge s c r
      rwa [h] at this
    | ok s1 =>
      have h1 := mark_dirty_knowledge s c r
      rw [h] at h1
      simp only [resState] at h1
      rw [markDirtyList_knowledge _ s1, h1]
  · rfl

theorem steps_update_unknown {s : SolverState} {c r : Int} (v : Nat)
    (h : s.knowledge c r = CELL_UNKNOWN) :
    Steps s { s with knowledge := updateFun s.knowledge c r v } := by
  refine ⟨⟨rfl, rfl, rfl⟩, ?_, ⟨[], by simp⟩, fun _ _ hd => .inl hd⟩
  intro c' r' hne
  by_cases hc : c' = c ∧ r' = r
  · obtain ⟨rfl, rfl⟩ := hc
    exact absurd h hne
  · exact updateFun_other _ _ _ _ _ _ hc

theorem steps_sweep_unknown_cell (field : Oracle) (s : SolverState)
    (c r : Int) : Steps s (resState (sweep_unknown_cell field s c r)) := by
  unfold sweep_unknown_cell
  split
  · split
    case isTrue hu =>
      cases hf : field c r with
      | none => exact steps_refl s
      | some v =>
        exact steps_trans (steps_update_unknown v hu)
          (steps_mark_neighbourhood_dirty _ c r)
    case isFalse hu => exact steps_refl s
  · exact steps_refl s

theorem steps_flag_unknown_cell (s : SolverState) (c r : Int) :
    Steps s (resState (flag_unknown_cell s c r)) := by
  unfold flag_unknown_cell
  split
  · split
    case isTrue hu =>
      exact steps_trans (steps_update_unknown CELL_FLAGGED hu)
        (steps_mark_neighbourhood_dirty _ c r)
    case isFalse hu => exact steps_refl s
  · exact steps_refl s

theorem steps_sweepList (field : Oracle) (L : List (Int × Int)) :
    ∀ s : SolverState, Steps s (resState (sweepList field s L)) := by
  induction L with
  | nil => intro s; exact steps_refl s
  | cons y rest ih =>
    intro s
    simp only [sweepList]
    split
    · cases h : sweep_unknown_cell field s y.1 y.2 with
      | error e =>
        have := steps_sweep_unknown_cell field s y.1 y.2
        rwa [h] at this
      | ok s1 =>
        have h1 := steps_sweep_unknown_cell field s y.1 y.2
        rw [h] at h1
        exact steps_trans h1 (ih s1)
    · exact ih s

theorem steps_flagList (L : List (Int × Int)) :
    ∀ s : SolverState, Steps s (resState (flagList s L)) := by
  induction L with
  | nil => intro s; exact steps_refl s
  | cons y rest ih =>
    intro s
    simp only [flagList]
    split
    · cases h : flag_unknown_cell s y.1 y.2 with
      | error e =>
        have := steps_flag_unknown_cell s y.1 y.2
        rwa [h] at this
      | ok s1 =>
        have h1 := steps_flag_unknown_cell s y.1 y.2
        rw [h] at h1
        exact steps_trans h1 (ih s1)
    · exact ih s

theorem steps_sweep_unknown_neighbours (field : Oracle) (s : SolverState)
    (c r : Int) : Steps s (resState (sweep_unknown_neighbours field s c r)) := by
  unfold sweep_unknown_neighbours
  split
  · exact steps_sweepList field _ s
  · exact steps_refl s

theorem steps_flag_unknown_neighbours (s : SolverState) (c r : Int) :
    Steps s (resState (flag_unknown_neighbours s c r)) := by
  unfold flag_unknown_neighbours
  split
  · exact steps_flagList _ s
  · exact steps_refl s

theorem countLoop_error {s : SolverState} :
    ∀ (L : List (Int × Int)) (u m : Nat) {e : SolveErr × SolverState},
      countLoop s L u m = .error e → e = (.assertFail, s) := by
  intro L
  induction L with
  | nil => intro u m e h; cases h
  | cons y rest ih =>
    intro u m e h
    simp only [countLoop] at h
    split at h
    · exact ih _ _ h
    split at h
    · exact ih _ _ h
    split at h
    · exact ih _ _ h
    · cases h; rfl

theorem count_neighbours_error {s : SolverState} {c r : Int}
    {e : SolveErr × SolverState} (h : count_neighbours s c r = .error e) :
    e = (.assertFail, s) := by
  unfold count_neighbours at h
  split at h
  · exact countLoop_error _ _ _ h
  · cases h; rfl

theorem steps_check_cell_step (field : Oracle) (s : SolverState) (c r : Int) :
    Steps s (resState (check_cell_step field s c r)) := by
  unfold check_cell_step
  split
  · exact steps_refl s
  split
  · exact steps_refl s
  split
  · split
    case _ e heq =>
      obtain rfl := count_neighbours_error heq
      exact steps_refl s
    case _ nUnknown nMines heq =>
      split
      · exact steps_sweep_unknown_neighbours field s c r
      split
      · exact steps_refl s
      split
      · exact steps_flag_unknown_neighbours s c r
      · exact steps_refl s
  · exact steps_refl s

theorem steps_clear_flag (s : SolverState) (c r : Int) :
    Steps s { s with is_dirty := updateFun s.is_dirty c r false } := by
  refine ⟨⟨rfl, rfl, rfl⟩, fun _ _ _ => rfl, ⟨[], by simp⟩, ?_⟩
  intro c' r' hd
  simp only at hd
  by_cases hc : c' = c ∧ r' = r
  · rw [updateFun, if_pos hc] at hd
    cases hd
  · rw [updateFun_other _ _ _ _ _ _ hc] at hd
    exact .inl hd

theorem steps_check_cell (field : Oracle) (s : SolverState) (c r : Int) :
    Steps s (resState (check_cell field s c r)) := by
  unfold check_cell
  split
  · split
    · exact steps_refl s
    · cases h : check_cell_step field s c r with
      | error e =>
        have := steps_check_cell_step field s c r
        rwa [h] at this
      | ok s1 =>
        have h1 := steps_check_cell_step field s c r
        rw [h] at h1
        exact steps_trans h1 (steps_clear_flag s1 c r)
  · exact steps_refl s

/-! ## Inversion lemmas for successful operations -/

theorem mark_dirty_ok {s : SolverState} {c r : Int} {s' : SolverState}
    (h : mark_dirty s c r = .ok s') :
    is_in_bounds s c r = true ∧
      s' = { s with is_dirty := updateFun s.is_dirty c r true,
                    dirty_queue := s.dirty_queue ++ [(c, r)] } := by
  unfold mark_dirty at h
  split at h
  · cases h
    exact ⟨by assumption, rfl⟩
  · cases h

theorem sweep_ok {field : Oracle} {s : SolverState} {c r : Int}
    {s' : SolverState} (h : sweep_unknown_cell field s c r = .ok s') :
    is_in_bounds s c r = true ∧ s.knowledge c r = CELL_UNKNOWN ∧
      ∃ v, field c r = some v ∧
        s'.knowledge = updateFun s.knowledge c r v := by
  unfold sweep_unknown_cell at h
  split at h
  case isTrue hb =>
    split at h
    case isTrue hu =>
      split at h
      case _ hf => cases h
      case _ v hf =>
        refine ⟨hb, hu, v, hf, ?_⟩
        have hk := mark_neighbourhood_dirty_knowledge
          { s with knowledge := updateFun s.knowledge c r v } c r
        rw [h] at hk
        exact hk
    case isFalse hu => cases h
  case isFalse hb => cases h

theorem flag_ok {s : SolverState} {c r : Int} {s' : SolverState}
    (h : flag_unknown_cell s c r = .ok s') :
    is_in_bounds s c r = true ∧ s.knowledge c r = CELL_UNKNOWN ∧
      s'.knowledge = updateFun s.knowledge c r CELL_FLAGGED := by
  unfold flag_unknown_cell at h
  split at h
  case isTrue hb =>
    split at h
    case isTrue hu =>
      refine ⟨hb, hu, ?_⟩
      have hk := mark_neighbourhood_dirty_knowledge
        { s with knowledge := updateFun s.knowledge c r CELL_FLAGGED } c r
      rw [h] at hk
      exact hk
    case isFalse hu => cases h
  case isFalse hb => cases h

theorem check_cell_ok_dirty {field : Oracle} {s : SolverState} {c r : Int}
    {s' : SolverState} (h : check_cell field s c r = .ok s') :
    s'.is_dirty c r = false := by
  unfold check_cell at h
  split at h
  · split at h
    case isTrue hclean => cases h; assumption
    case isFalse hclean =>
      cases hs : check_cell_step field s c r with
      | error e => rw [hs] at h; cases h
      | ok s1 =>
        rw [hs] at h
        cases h
        simp [updateFun_same]
  · cases h

/-! ## Queue-length and measure lemmas (termination of the drain loop) -/

/-- The oracle only ever reports neighbour-mine counts `0..8`
(spec: `RevealResult` is `SafeCount(n: 0..8)` or `Detonated`). -/
def OracleInRange (field : Oracle) : Prop :=
  ∀ c r n, field c r = some n → n ≤ 8

theorem markDirtyList_ok_len :
    ∀ (L : List (Int × Int)) (s s' : SolverState),
      markDirtyList s L = .ok s' →
      s'.dirty_queue.length ≤ s.dirty_queue.length + L.length := by
  intro L
  induction L with
  | nil =>
    intro s s' h
    cases h
    simp
  | cons y rest ih =>
    intro s s' h
    simp only [markDirtyList] at h
    split at h
    · cases h
    case _ s1 hm =>
      obtain ⟨_, rfl⟩ := mark_dirty_ok hm
      have := ih _ _ h
      simp only [List.length_append, List.length_cons, List.length_nil] at this ⊢
      omega

theorem mark_neighbourhood_ok_len {s : SolverState} {c r : Int}
    {s' : SolverState} (h : mark_neighbourhood_dirty s c r = .ok s') :
    s'.dirty_queue.length ≤ s.dirty_queue.length + 9 := by
  unfold mark_neighbourhood_dirty at h
  split at h
  · split at h
    · cases h
    case _ s1 hm =>
      obtain ⟨_, rfl⟩ := mark_dirty_ok hm
      have h1 := markDirtyList_ok_len _ _ _ h
      have h2 := neighbours_length_le
        { s with is_dirty := updateFun s.is_dirty c r true,
                 dirty_queue := s.dirty_queue ++ [(c, r)] } c r
      simp only [List.length_append, List.length_cons, List.length_nil] at h1
      omega
  · cases h

theorem mark_neighbourhood_ok_shape {s : SolverState} {c r : Int}
    {s' : SolverState} (h : mark_neighbourhood_dirty s c r = .ok s') :
    s'.width = s.width ∧ s'.height = s.height := by
  have := steps_mark_neighbourhood_dirty s c r
  rw [h] at this
  exact ⟨this.1.1, this.1.2.1⟩

theorem unknownTotal_eq_of {s s' : SolverState} (hw : s'.width = s.width)
    (hh : s'.height = s.height) (hk : s'.knowledge = s.knowledge) :
    unknownTotal s' = unknownTotal s := by
  unfold unknownTotal
  rw [hw, hh, hk]

theorem unknownTotal_update_lt {s s' : SolverState} {c r : Int} {v : Nat}
    (hb : is_in_bounds s c r = true) (hu : s.knowledge c r = CELL_UNKNOWN)
    (hv : v ≠ CELL_UNKNOWN) (hw : s'.width = s.width)
    (hh : s'.height = s.height)
    (hk : s'.knowledge = updateFun s.knowledge c r v) :
    unknownTotal s' < unknownTotal s := by
  unfold unknownTotal
  rw [hw, hh, hk]
  refine countP_lt_of_mem _ _ _ ?_ (c, r) (mem_cellList_bounds.mpr hb) ?_ ?_
  · intro a _ ha
    by_cases hc : a.1 = c ∧ a.2 = r
    · rw [updateFun, if_pos hc, beq_iff_eq] at ha
      exact absurd ha hv
    · rwa [updateFun_other _ _ _ _ _ _ hc] at ha
  · simp only [updateFun_same, beq_eq_false_iff_ne, ne_eq]
    exact hv
  · simp [hu]

theorem sweep_ok_mark {field : Oracle} {s : SolverState} {c r : Int}
    {s' : SolverState} (h : sweep_unknown_cell field s c r = .ok s') :
    ∃ v, field c r = some v ∧
      mark_neighbourhood_dirty
        { s with knowledge := updateFun s.knowledge c r v } c r = .ok s' := by
  unfold sweep_unknown_cell at h
  split at h
  case isTrue hb =>
    split at h
    case isTrue hu =>
      split at h
      case _ hf => cases h
      case _ v hf => exact ⟨v, hf, h⟩
    case isFalse hu => cases h
  case isFalse hb => cases h

theorem flag_ok_mark {s : SolverState} {c r : Int} {s' : SolverState}
    (h : flag_unknown_cell s c r = .ok s') :
    mark_neighbourhood_dirty
      { s with knowledge := updateFun s.knowledge c r CELL_FLAGGED } c r
      = .ok s' := by
  unfold flag_unknown_cell at h
  split at h
  case isTrue hb =>
    split at h
    case isTrue hu => exact h
    case isFalse hu => cases h
  case isFalse hb => cases h

theorem sweep_ok_meas {field : Oracle} {s : SolverState} {c r : Int}
    {s' : SolverState} (hrange : OracleInRange field)
    (h : sweep_unknown_cell field s c r = .ok s') : meas s' ≤ meas s := by
  obtain ⟨hb, hu, v, hf, hk⟩ := sweep_ok h
  obtain ⟨v', hf', hm⟩ := sweep_ok_mark h
  rw [hf] at hf'
  cases hf'
  have hv : v ≠ CELL_UNKNOWN := by
    have := hrange c r v hf
    unfold CELL_UNKNOWN
    omega
  have hlen' := mark_neighbourhood_ok_len hm
  have hlen : s'.dirty_queue.length ≤ s.dirty_queue.length + 9 := hlen'
  have hshape' := mark_neighbourhood_ok_shape hm
  have hw : s'.width = s.width := hshape'.1
  have hh : s'.height = s.height := hshape'.2
  have hU := unknownTotal_update_lt hb hu hv hw hh hk
  unfold meas
  omega

theorem flag_ok_meas {s : SolverState} {c r : Int} {s' : SolverState}
    (h : flag_unknown_cell s c r = .ok s') : meas s' ≤ meas s := by
  obtain ⟨hb, hu, hk⟩ := flag_ok h
  have hm := flag_ok_mark h
  have hv : CELL_FLAGGED ≠ CELL_UNKNOWN := by
    unfold CELL_FLAGGED CELL_UNKNOWN
    omega
  have hlen' := mark_neighbourhood_ok_len hm
  have hlen : s'.dirty_queue.length ≤ s.dirty_queue.length + 9 := hlen'
  have hshape' := mark_neighbourhood_ok_shape hm
  have hw : s'.width = s.width := hshape'.1
  have hh : s'.height = s.height := hshape'.2
  have hU := unknownTotal_update_lt hb hu hv hw hh hk
  unfold meas
  omega

theorem sweepList_ok_meas {field : Oracle} (hrange : OracleInRange field) :
    ∀ (L : List (Int × Int)) (s s' : SolverState),
      sweepList field s L = .ok s' → meas s' ≤ meas s := by
  intro L
  induction L with
  | nil =>
    intro s s' h
    cases h
    exact le_refl _
  | cons y rest ih =>
    intro s s' h
    simp only [sweepList] at h
    split at h
    · split at h
      · cases h
      case _ s1 hs =>
        exact le_trans (ih _ _ h) (sweep_ok_meas hrange hs)
    · exact ih _ _ h

theorem flagList_ok_meas :
    ∀ (L : List (Int × Int)) (s s' : SolverState),
      flagList s L = .ok s' → meas s' ≤ meas s := by
  intro L
  induction L with
  | nil =>
    intro s s' h
    cases h
    exact le_refl _
  | cons y rest ih =>
    intro s s' h
    simp only [flagList] at h
    split at h
    · split at h
      · cases h
      case _ s1 hs =>
        exact le_trans (ih _ _ h) (flag_ok_meas hs)
    · exact ih _ _ h

theorem check_cell_step_ok_meas {field : Oracle} {s : SolverState}
    {c r : Int} {s' : SolverState} (hrange : OracleInRange field)
    (h : check_cell_step field s c r = .ok s') : meas s' ≤ meas s := by
  unfold check_cell_step at h
  split at h
  · cases h; exact le_refl _
  split at h
  · cases h; exact le_refl _
  split at h
  · split at h
    · cases h
    case _ nUnknown nMines heq =>
      split at h
      · unfold sweep_unknown_neighbours at h
        split at h
        · exact sweepList_ok_meas hrange _ _ _ h
        · cases h
      split at h
      · cases h; exact le_refl _
      split at h
      · unfold flag_unknown_neighbours at h
        split at h
        · exact flagList_ok_meas _ _ _ h
        · cases h
      · cases h
  · cases h; exact le_refl _

theorem check_cell_ok_meas {field : Oracle} {s : SolverState} {c r : Int}
    {s' : SolverState} (hrange : OracleInRange field)
    (h : check_cell field s c r = .ok s') : meas s' ≤ meas s := by
  unfold check_cell at h
  split at h
  · split at h
    · cases h; exact le_refl _
    · split at h
      · cases h
      case _ s1 hs =>
        cases h
        have h1 := check_cell_step_ok_meas hrange hs
        have h2 : meas { s1 with is_dirty := updateFun s1.is_dirty c r false }
            = meas s1 := rfl
        omega
  · cases h

/-- Sufficient fuel makes the drain loop finish: each iteration strictly
decreases `meas`. -/
theorem process_queue_fuel_isSome {field : Oracle}
    (hrange : OracleInRange field) :
    ∀ (fuel : Nat) (s : SolverState), meas s < fuel →
      (process_queue_fuel field fuel s).isSome = true := by
  intro fuel
  induction fuel with
  | zero => intro s h; omega
  | succ fuel ih =>
    intro s h
    unfold process_queue_fuel
    split
    · simp
    case isFalse hq =>
      have hql : 1 ≤ s.dirty_queue.length := by
        cases hqq : s.dirty_queue with
        | nil => exact absurd hqq hq
        | cons a t => simp
      split
      · simp
      case _ s2 hck =>
        apply ih
        have h1 := check_cell_ok_meas hrange hck
        have h2 : meas { s with dirty_queue := s.dirty_queue.dropLast } + 1
            ≤ meas s := by
          unfold meas unknownTotal
          dsimp only
          rw [List.length_dropLast]
          omega
        omega

/-! ## Draining, monotonicity and dirty-set lemmas -/

theorem process_queue_fuel_ok {field : Oracle} :
    ∀ (fuel : Nat) (s s' : SolverState),
      process_queue_fuel field fuel s = some (.ok s') →
      s'.dirty_queue = [] ∧
        ∀ c r, is_in_bounds s' c r = true → s'.is_dirty c r = false := by
  intro fuel
  induction fuel with
  | zero => intro s s' h; cases h
  | succ fuel ih =>
    intro s s' h
    unfold process_queue_fuel at h
    split at h
    case isTrue hq =>
      split at h
      case isTrue hd =>
        cases h
        refine ⟨hq, ?_⟩
        intro c r hb
        unfold dirtyTotal at hd
        rw [List.countP_eq_zero] at hd
        have := hd (c, r) (mem_cellList_bounds.mpr hb)
        simpa using this
      case isFalse hd => cases h
    case isFalse hq =>
      split at h
      · cases h
      case _ s2 hck => exact ih _ _ h

/-- What the drain loop and the solve loop can do to a state: the shape is
fixed and no `Revealed`/`Flagged` cell ever changes. -/
def Mono (s s' : SolverState) : Prop :=
  (s'.width = s.width ∧ s'.height = s.height ∧
    s'.number_of_mines = s.number_of_mines) ∧
  ∀ c r, s.knowledge c r ≠ CELL_UNKNOWN → s'.knowledge c r = s.knowledge c r

theorem Steps.mono {s s' : SolverState} (h : Steps s s') : Mono s s' :=
  ⟨h.1, h.2.1⟩

theorem mono_refl (s : SolverState) : Mono s s :=
  ⟨⟨rfl, rfl, rfl⟩, fun _ _ _ => rfl⟩

theorem mono_trans {s₁ s₂ s₃ : SolverState} (h1 : Mono s₁ s₂)
    (h2 : Mono s₂ s₃) : Mono s₁ s₃ := by
  obtain ⟨⟨w1, h1', m1⟩, k1⟩ := h1
  obtain ⟨⟨w2, h2', m2⟩, k2⟩ := h2
  refine ⟨⟨w2.trans w1, h2'.trans h1', m2.trans m1⟩, ?_⟩
  intro c r h
  rw [k2 c r (by rw [k1 c r h]; exact h), k1 c r h]

theorem process_queue_fuel_mono {field : Oracle} :
    ∀ (fuel : Nat) (s : SolverState) (res : Exc SolverState),
      process_queue_fuel field fuel s = some res → Mono s (resState res) := by
  intro fuel
  induction fuel with
  | zero => intro s res h; cases h
  | succ fuel ih =>
    intro s res h
    unfold process_queue_fuel at h
    split at h
    case isTrue hq =>
      split at h <;> cases h <;> exact mono_refl s
    case isFalse hq =>
      have hmono1 : Mono s { s with dirty_queue := s.dirty_queue.dropLast } :=
        ⟨⟨rfl, rfl, rfl⟩, fun _ _ _ => rfl⟩
      split at h
      case _ e hck =>
        cases h
        have h2 := steps_check_cell field
          { s with dirty_queue := s.dirty_queue.dropLast }
          (s.dirty_queue.getLastD (0, 0)).1 (s.dirty_queue.getLastD (0, 0)).2
        rw [hck] at h2
        exact mono_trans hmono1 h2.mono
      case _ s2 hck =>
        have h2 := steps_check_cell field
          { s with dirty_queue := s.dirty_queue.dropLast }
          (s.dirty_queue.getLastD (0, 0)).1 (s.dirty_queue.getLastD (0, 0)).2
        rw [hck] at h2
        exact mono_trans hmono1 (mono_trans h2.mono (ih _ _ h))

theorem process_queue_mono {field : Oracle} {s : SolverState}
    {res : Exc SolverState} (h : process_queue field s = some res) :
    Mono s (resState res) :=
  process_queue_fuel_mono _ s res h

theorem solve_fuel_mono {field : Oracle} {picks : Nat → Nat} :
    ∀ (fuel : Nat) (s : SolverState) (out : Outcome) (s' : SolverState),
      solve_fuel field picks fuel s = some (out, s') → Mono s s' := by
  intro fuel
  induction fuel with
  | zero => intro s out s' h; cases h
  | succ fuel ih =>
    intro s out s' h
    unfold solve_fuel at h
    split at h
    · cases h
      exact mono_refl s
    case _ g hg =>
      have hsw := steps_sweep_unknown_cell field s g.1 g.2
      split at h
      case _ s1 hs =>
        cases h
        rw [hs] at hsw
        exact hsw.mono
      case _ s1 hs =>
        cases h
        rw [hs] at hsw
        exact hsw.mono
      case _ s1 hs =>
        rw [hs] at hsw
        split at h
        · cases h
        case _ e2 s2 hp =>
          cases h
          have h2 := process_queue_mono hp
          exact mono_trans hsw.mono h2
        case _ s2 hp =>
          have h2 := process_queue_mono hp
          exact mono_trans hsw.mono (mono_trans h2 (ih _ _ _ h))

/-- The sound half of the spec's dirty-set invariant: every coordinate
whose membership flag is set occurs in the worklist. -/
def DirtyImpliesQueued (s : SolverState) : Prop :=
  ∀ c r, s.is_dirty c r = true → (c, r) ∈ s.dirty_queue

theorem steps_dirtyImpliesQueued {s s' : SolverState} (h : Steps s s')
    (hd : DirtyImpliesQueued s) : DirtyImpliesQueued s' := by
  intro c r hdirty
  rcases h.2.2.2 c r hdirty with h1 | h1
  · obtain ⟨t, ht⟩ := h.2.2.1
    rw [ht]
    exact List.mem_append_left _ (hd c r h1)
  · exact h1

/-! ## Lemmas about `unknown_list` and `sample_random_unknown` -/

theorem unknown_list_mem {s : SolverState} {y : Int × Int}
    (h : y ∈ unknown_list s) :
    is_in_bounds s y.1 y.2 = true ∧ s.knowledge y.1 y.2 = CELL_UNKNOWN := by
  unfold unknown_list at h
  rw [List.mem_flatMap] at h
  obtain ⟨row, hrow, hy⟩ := h
  rw [List.mem_filterMap] at hy
  obtain ⟨col, hcol, hcr⟩ := hy
  rw [List.mem_range] at hrow hcol
  split at hcr
  case isTrue hk =>
    cases hcr
    refine ⟨?_, hk⟩
    rw [is_in_bounds_iff]
    simp only [Int.ofNat_eq_coe]
    refine ⟨by omega, by omega, by omega, by omega⟩
  case isFalse hk => cases hcr

theorem sample_some_mem {s : SolverState} {i : Nat} {g : Int × Int}
    (h : sample_random_unknown s i = some g) : g ∈ unknown_list s := by
  unfold sample_random_unknown at h
  split at h
  · cases h
  case isFalse hl =>
    cases h
    have hlt : i % (unknown_list s).length < (unknown_list s).length :=
      Nat.mod_lt _ (by omega)
    rw [List.getD_eq_getElem _ _ hlt]
    exact List.getElem_mem hlt

/-! ## Characterisation of `count_neighbours` and the sweep/flag folds -/

theorem countLoop_ok_eq {s : SolverState} :
    ∀ (L : List (Int × Int)) (u m : Nat) {p : Nat × Nat},
      countLoop s L u m = .ok p →
      p.1 = u + L.countP (fun y => s.knowledge y.1 y.2 == CELL_UNKNOWN) ∧
      p.2 = m + L.countP (fun y => s.knowledge y.1 y.2 == CELL_FLAGGED) := by
  intro L
  induction L with
  | nil =>
    intro u m p h
    cases h
    simp
  | cons y rest ih =>
    intro u m p h
    simp only [countLoop] at h
    split at h
    case isTrue hf =>
      have hrec := ih _ _ h
      have e1 : (s.knowledge y.1 y.2 == CELL_UNKNOWN) = false := by
        rw [hf]; decide
      have e2 : (s.knowledge y.1 y.2 == CELL_FLAGGED) = true := by
        rw [hf]; decide
      simp [List.countP_cons, e1, e2]
      omega
    split at h
    case isTrue hu =>
      have hrec := ih _ _ h
      have e1 : (s.knowledge y.1 y.2 == CELL_UNKNOWN) = true := by
        rw [hu]; decide
      have e2 : (s.knowledge y.1 y.2 == CELL_FLAGGED) = false := by
        rw [hu]; decide
      simp [List.countP_cons, e1, e2]
      omega
    split at h
    case isTrue h8 =>
      have hrec := ih _ _ h
      have hnf : ¬(s.knowledge y.1 y.2 = CELL_FLAGGED) := by assumption
      have hnu : ¬(s.knowledge y.1 y.2 = CELL_UNKNOWN) := by assumption
      have e1 : (s.knowledge y.1 y.2 == CELL_UNKNOWN) = false := by
        simp [hnu]
      have e2 : (s.knowledge y.1 y.2 == CELL_FLAGGED) = false := by
        simp [hnf]
      simp [List.countP_cons, e1, e2]
      omega
    · cases h

theorem count_neighbours_ok_eq {s : SolverState} {c r : Int} {p : Nat × Nat}
    (h : count_neighbours s c r = .ok p) :
    p.1 = (neighbours s c r).countP
        (fun y => s.knowledge y.1 y.2 == CELL_UNKNOWN) ∧
    p.2 = (neighbours s c r).countP
        (fun y => s.knowledge y.1 y.2 == CELL_FLAGGED) := by
  unfold count_neighbours at h
  split at h
  · have := countLoop_ok_eq _ _ _ h
    simpa using this
  · cases h

theorem pair_ne_of_not_and {p y : Int × Int} (h : ¬(p.1 = y.1 ∧ p.2 = y.2)) :
    p ≠ y := by
  intro heq
  exact h ⟨by rw [heq], by rw [heq]⟩

theorem sweepList_spec {field : Oracle} :
    ∀ (L : List (Int × Int)) (s s' : SolverState), L.Nodup →
      sweepList field s L = .ok s' →
      (∀ p : Int × Int, p ∉ L → s'.knowledge p.1 p.2 = s.knowledge p.1 p.2) ∧
      (∀ y ∈ L, s.knowledge y.1 y.2 = CELL_UNKNOWN →
        ∃ v, field y.1 y.2 = some v ∧ s'.knowledge y.1 y.2 = v) := by
  intro L
  induction L with
  | nil =>
    intro s s' _ h
    cases h
    exact ⟨fun _ _ => rfl, by simp⟩
  | cons y rest ih =>
    intro s s' hnd h
    rw [List.nodup_cons] at hnd
    simp only [sweepList] at h
    split at h
    case isTrue hu =>
      split at h
      · cases h
      case _ s1 hsw =>
        obtain ⟨_, _, v, hf, hk1⟩ := sweep_ok hsw
        obtain ⟨ihpres, ihsweep⟩ := ih s1 s' hnd.2 h
        constructor
        · intro p hp
          rw [List.mem_cons, not_or] at hp
          rw [ihpres p hp.2, hk1,
            updateFun_other _ _ _ _ _ _ (fun hc => hp.1 (by
              obtain ⟨h1, h2⟩ := hc
              obtain ⟨p1, p2⟩ := p
              obtain ⟨y1, y2⟩ := y
              simp only at h1 h2
              rw [h1, h2]))]
        · intro z hz hkz
          rcases List.mem_cons.mp hz with rfl | hz'
          · refine ⟨v, hf, ?_⟩
            rw [ihpres z hnd.1, hk1, updateFun_same]
          · have hzy : z ≠ y := by
              intro heq
              exact hnd.1 (heq ▸ hz')
            have hkz1 : s1.knowledge z.1 z.2 = CELL_UNKNOWN := by
              rw [hk1, updateFun_other _ _ _ _ _ _ (fun hc =>
                hzy (by
                  obtain ⟨h1, h2⟩ := hc
                  obtain ⟨z1, z2⟩ := z
                  obtain ⟨y1, y2⟩ := y
                  simp only at h1 h2
                  rw [h1, h2]))]
              exact hkz
            exact ihsweep z hz' hkz1
    case isFalse hu =>
      obtain ⟨ihpres, ihsweep⟩ := ih s s' hnd.2 h
      constructor
      · intro p hp
        rw [List.mem_cons, not_or] at hp
        exact ihpres p hp.2
      · intro z hz hkz
        rcases List.mem_cons.mp hz with rfl | hz'
        · exact absurd hkz hu
        · exact ihsweep z hz' hkz

theorem flagList_spec :
    ∀ (L : List (Int × Int)) (s s' : SolverState), L.Nodup →
      flagList s L = .ok s' →
      (∀ p : Int × Int, p ∉ L → s'.knowledge p.1 p.2 = s.knowledge p.1 p.2) ∧
      (∀ y ∈ L, s.knowledge y.1 y.2 = CELL_UNKNOWN →
        s'.knowledge y.1 y.2 = CELL_FLAGGED) := by
  intro L
  induction L with
  | nil =>
    intro s s' _ h
    cases h
    exact ⟨fun _ _ => rfl, by simp⟩
  | cons y rest ih =>
    intro s s' hnd h
    rw [List.nodup_cons] at hnd
    simp only [flagList] at h
    split at h
    case isTrue hu =>
      split at h
      · cases h
      case _ s1 hfl =>
        obtain ⟨_, _, hk1⟩ := flag_ok hfl
        obtain ⟨ihpres, ihflag⟩ := ih s1 s' hnd.2 h
        constructor
        · intro p hp
          rw [List.mem_cons, not_or] at hp
          rw [ihpres p hp.2, hk1,
            updateFun_other _ _ _ _ _ _ (fun hc => hp.1 (by
              obtain ⟨h1, h2⟩ := hc
              obtain ⟨p1, p2⟩ := p
              obtain ⟨y1, y2⟩ := y
              simp only at h1 h2
              rw [h1, h2]))]
        · intro z hz hkz
          rcases List.mem_cons.mp hz with rfl | hz'
          · rw [ihpres z hnd.1, hk1, updateFun_same]
          · have hzy : z ≠ y := by
              intro heq
              exact hnd.1 (heq ▸ hz')
            have hkz1 : s1.knowledge z.1 z.2 = CELL_UNKNOWN := by
              rw [hk1, updateFun_other _ _ _ _ _ _ (fun hc =>
                hzy (by
                  obtain ⟨h1, h2⟩ := hc
                  obtain ⟨z1, z2⟩ := z
                  obtain ⟨y1, y2⟩ := y
                  simp only at h1 h2
                  rw [h1, h2]))]
              exact hkz
            exact ihflag z hz' hkz1
    case isFalse hu =>
      obtain ⟨ihpres, ihflag⟩ := ih s s' hnd.2 h
      constructor
      · intro p hp
        rw [List.mem_cons, not_or] at hp
        exact ihpres p hp.2
      · intro z hz hkz
        rcases List.mem_cons.mp hz with rfl | hz'
        · exact absurd hkz hu
        · exact ihflag z hz' hkz

/-! ## Claim theorems -/

/-- C1: for an in-bounds, dirty cell revealed as `n ≤ 8`, `check_cell`
computes `hidden_mines = n -` (number of flagged neighbours); if it is `0`
it sweeps every currently-unknown in-bounds neighbour (each receives the
oracle's answer), if it is positive and equals the number of unknown
neighbours it flags every currently-unknown neighbour, and if it lies
strictly between `0` and that number it changes no cell's knowledge; in
every non-raising case the cell's own dirty flag ends up cleared. -/
theorem check_cell_deduction {field : Oracle} {s s' : SolverState}
    {c r : Int} {nU nM : Nat}
    (hb : is_in_bounds s c r = true) (hd : s.is_dirty c r = true)
    (hk : s.knowledge c r ≤ 8)
    (hcnt : count_neighbours s c r = .ok (nU, nM))
    (hok : check_cell field s c r = .ok s') :
    nU = (neighbours s c r).countP
        (fun y => s.knowledge y.1 y.2 == CELL_UNKNOWN) ∧
    nM = (neighbours s c r).countP
        (fun y => s.knowledge y.1 y.2 == CELL_FLAGGED) ∧
    ((s.knowledge c r : Int) - (nM : Int) = 0 →
      ∀ y ∈ neighbours s c r, s.knowledge y.1 y.2 = CELL_UNKNOWN →
        ∃ v, field y.1 y.2 = some v ∧ s'.knowledge y.1 y.2 = v) ∧
    (0 < (s.knowledge c r : Int) - (nM : Int) →
      (s.knowledge c r : Int) - (nM : Int) = (nU : Int) →
      ∀ y ∈ neighbours s c r, s.knowledge y.1 y.2 = CELL_UNKNOWN →
        s'.knowledge y.1 y.2 = CELL_FLAGGED) ∧
    (0 < (s.knowledge c r : Int) - (nM : Int) →
      (s.knowledge c r : Int) - (nM : Int) < (nU : Int) →
      s'.knowledge = s.knowledge) ∧
    s'.is_dirty c r = false := by
  have hcq := count_neighbours_ok_eq hcnt
  have h100 : ¬s.knowledge c r = CELL_FLAGGED := by
    unfold CELL_FLAGGED
    omega
  have h200 : ¬s.knowledge c r = CELL_UNKNOWN := by
    unfold CELL_UNKNOWN
    omega
  have hstep : check_cell_step field s c r =
      (if (s.knowledge c r : Int) - (nM : Int) = 0 then
        sweep_unknown_neighbours field s c r
      else if (s.knowledge c r : Int) - (nM : Int) < (nU : Int) then
        .ok s
      else if (s.knowledge c r : Int) - (nM : Int) = (nU : Int) then
        flag_unknown_neighbours s c r
      else
        .error (.assertFail, s)) := by
    unfold check_cell_step
    rw [if_neg h100, if_neg h200, if_pos hk, hcnt]
  have hcc : check_cell field s c r =
      (match check_cell_step field s c r with
      | .error e => .error e
      | .ok s1 =>
        .ok { s1 with is_dirty := updateFun s1.is_dirty c r false }) := by
    unfold check_cell
    rw [if_pos hb, if_neg (by simp [hd])]
  refine ⟨by simpa using hcq.1, by simpa using hcq.2, ?_, ?_, ?_,
    check_cell_ok_dirty hok⟩
  · intro h0 y hy hky
    rw [hcc, hstep, if_pos h0] at hok
    split at hok
    · cases hok
    case _ s1 hsn =>
      cases hok
      unfold sweep_unknown_neighbours at hsn
      rw [if_pos hb] at hsn
      have hspec := (sweepList_spec _ s s1 (neighbours_nodup s c r) hsn).2
        y hy hky
      exact hspec
  · intro hpos heq y hy hky
    rw [hcc, hstep, if_neg (by omega), if_neg (by omega), if_pos heq] at hok
    split at hok
    · cases hok
    case _ s1 hfn =>
      cases hok
      unfold flag_unknown_neighbours at hfn
      rw [if_pos hb] at hfn
      exact (flagList_spec _ s s1 (neighbours_nodup s c r) hfn).2 y hy hky
  · intro hpos hlt
    rw [hcc, hstep, if_neg (by omega), if_pos hlt] at hok
    cases hok
    rfl

/-- Oracle and state used as witness input for the deduction rule: a
`2 × 1` grid whose left cell is `Revealed(0)` and dirty. -/
def c1field : Oracle := fun _ _ => some 0

/-- Witness state for C1. -/
def c1state : SolverState :=
  { width := 2, height := 1, number_of_mines := 0,
    knowledge := fun c r => if c = 0 ∧ r = 0 then 0 else CELL_UNKNOWN,
    is_dirty := fun c r => if c = 0 ∧ r = 0 then true else false,
    dirty_queue := [(0, 0)] }

/-- The state produced by `check_cell` on the C1 witness input. -/
def c1res : SolverState := resState (check_cell c1field c1state 0 0)

theorem check_cell_deduction_witness : c1res.knowledge 1 0 = 0 := by
  have h := (@check_cell_deduction c1field c1state c1res 0 0 1 0
    (by decide) (by decide) (by decide) (by rfl) (by rfl)).2.2.1
    (by decide) (1, 0) (by decide) (by decide)
  obtain ⟨v, hv, hk⟩ := h
  have hv0 : some 0 = some v := hv
  cases hv0
  exact hk

/-- C2: whenever `process_queue` returns normally, every membership flag
of the `is_dirty` grid is false and the worklist is empty. -/
theorem process_queue_drains {field : Oracle} {s s' : SolverState}
    (h : process_queue field s = some (.ok s')) :
    (∀ c r, is_in_bounds s' c r = true → s'.is_dirty c r = false) ∧
      s'.dirty_queue = [] :=
  ⟨(process_queue_fuel_ok _ s s' h).2, (process_queue_fuel_ok _ s s' h).1⟩

theorem process_queue_drains_witness :
    (∀ c r, is_in_bounds (mkSolver 1 1 0) c r = true →
      (mkSolver 1 1 0).is_dirty c r = false) ∧
      (mkSolver 1 1 0).dirty_queue = [] :=
  @process_queue_drains (fun _ _ => some 0) (mkSolver 1 1 0) (mkSolver 1 1 0)
    (by rfl)

/-- C4: with the oracle reporting counts in `0..8` as specified, the drain
loop terminates on every state — any grid, any queue contents (duplicates
included), any flags: the fuelled loop finishes within `meas s + 1`
iterations. -/
theorem process_queue_terminates {field : Oracle}
    (hrange : OracleInRange field) (s : SolverState) :
    (process_queue field s).isSome = true :=
  process_queue_fuel_isSome hrange (meas s + 1) s (Nat.lt_succ_self _)

/-- Witness state for C4: duplicate queue entries and all flags set. -/
def c4state : SolverState :=
  { width := 2, height := 1, number_of_mines := 0,
    knowledge := fun _ _ => CELL_UNKNOWN,
    is_dirty := fun _ _ => true,
    dirty_queue := [(0, 0), (1, 0), (0, 0), (0, 0)] }

theorem process_queue_terminates_witness :
    (process_queue (fun _ _ => some 0) c4state).isSome = true :=
  process_queue_terminates
    (fun _ _ n h => by injection h with h'; omega) c4state

/-- C8: `check_cell` on an in-bounds coordinate whose membership flag is
false is a complete no-op — it returns the state unchanged, for every
oracle (so in particular no oracle query can influence anything). -/
theorem check_cell_clean_noop {s : SolverState} {c r : Int}
    (hb : is_in_bounds s c r = true) (hd : s.is_dirty c r = false) :
    ∀ field : Oracle, check_cell field s c r = .ok s := by
  intro field
  unfold check_cell
  rw [if_pos hb, if_pos hd]

theorem check_cell_clean_noop_witness :
    check_cell (fun _ _ => some 0) (mkSolver 1 1 0) 0 0
      = .ok (mkSolver 1 1 0) :=
  check_cell_clean_noop (by decide) (by rfl) _

/-- C3: no engine operation ever changes the knowledge of a cell that is
no longer `CELL_UNKNOWN` — `Revealed` and `Flagged` cells keep their value
through sweeping, flagging, checking, draining and the whole solve loop
(also across raised exceptions, via the carried state). -/
theorem knowledge_monotone (field : Oracle) (picks : Nat → Nat)
    (s : SolverState) (c r : Int) :
    (∀ c' r', s.knowledge c' r' ≠ CELL_UNKNOWN →
      (resState (sweep_unknown_cell field s c r)).knowledge c' r'
          = s.knowledge c' r' ∧
        (resState (flag_unknown_cell s c r)).knowledge c' r'
          = s.knowledge c' r' ∧
        (resState (check_cell field s c r)).knowledge c' r'
          = s.knowledge c' r') ∧
    (∀ res, process_queue field s = some res →
      ∀ c' r', s.knowledge c' r' ≠ CELL_UNKNOWN →
        (resState res).knowledge c' r' = s.knowledge c' r') ∧
    (∀ fuel out s', solve_fuel field picks fuel s = some (out, s') →
      ∀ c' r', s.knowledge c' r' ≠ CELL_UNKNOWN →
        s'.knowledge c' r' = s.knowledge c' r') := by
  refine ⟨?_, ?_, ?_⟩
  · intro c' r' hne
    exact ⟨(steps_sweep_unknown_cell field s c r).2.1 c' r' hne,
      (steps_flag_unknown_cell s c r).2.1 c' r' hne,
      (steps_check_cell field s c r).2.1 c' r' hne⟩
  · intro res h c' r' hne
    exact (process_queue_mono h).2 c' r' hne
  · intro fuel out s' h c' r' hne
    exact (solve_fuel_mono fuel s out s' h).2 c' r' hne

theorem knowledge_monotone_witness :
    (resState (sweep_unknown_cell c1field c1state 1 0)).knowledge 0 0
      = c1state.knowledge 0 0 :=
  ((knowledge_monotone c1field (fun _ => 0) c1state 1 0).1 0 0 (by decide)).1

/-- C5 (amended): the sound half of the dirty-set invariant — a set
membership flag always comes with a worklist entry: it holds initially and
is preserved by `mark_dirty`, by sweeping, by flagging, and by every full
iteration of the drain loop (pop of the last queue entry followed by
`check_cell` on it).  The converse direction is refuted by the
counterexample theorem below. -/
theorem dirty_flag_implies_queued :
    (∀ (w h : Int) (m : Nat), DirtyImpliesQueued (mkSolver w h m)) ∧
    (∀ s s' c r, mark_dirty s c r = .ok s' →
      DirtyImpliesQueued s → DirtyImpliesQueued s') ∧
    (∀ field s s' c r, sweep_unknown_cell field s c r = .ok s' →
      DirtyImpliesQueued s → DirtyImpliesQueued s') ∧
    (∀ s s' c r, flag_unknown_cell s c r = .ok s' →
      DirtyImpliesQueued s → DirtyImpliesQueued s') ∧
    (∀ field s s' (q : List (Int × Int)) (c r : Int),
      s.dirty_queue = q ++ [(c, r)] →
      check_cell field { s with dirty_queue := q } c r = .ok s' →
      DirtyImpliesQueued s → DirtyImpliesQueued s') := by
  refine ⟨?_, ?_, ?_, ?_, ?_⟩
  · intro w h m c r hd
    simp [mkSolver] at hd
  · intro s s' c r h hD
    have hs := steps_mark_dirty s c r
    rw [h] at hs
    exact steps_dirtyImpliesQueued hs hD
  · intro field s s' c r h hD
    have hs := steps_sweep_unknown_cell field s c r
    rw [h] at hs
    exact steps_dirtyImpliesQueued hs hD
  · intro s s' c r h hD
    have hs := steps_flag_unknown_cell s c r
    rw [h] at hs
    exact steps_dirtyImpliesQueued hs hD
  · intro field s s' q c r hq hck hD
    have hsteps := steps_check_cell field { s with dirty_queue := q } c r
    rw [hck] at hsteps
    simp only [resState] at hsteps
    have hdq := check_cell_ok_dirty hck
    intro a b hab
    by_cases hac : a = c ∧ b = r
    · obtain ⟨rfl, rfl⟩ := hac
      rw [hdq] at hab
      cases hab
    · rcases hsteps.2.2.2 a b hab with h1 | h1
      · have h2 : s.is_dirty a b = true := h1
        have h3 := hD a b h2
        rw [hq] at h3
        rcases List.mem_append.mp h3 with h4 | h4
        · obtain ⟨t, ht⟩ := hsteps.2.2.1
          rw [ht]
          exact List.mem_append_left _ h4
        · rw [List.mem_singleton] at h4
          exact absurd h4 (pair_ne_of_not_and hac)
      · exact h1

theorem dirty_flag_implies_queued_witness :
    DirtyImpliesQueued (resState (mark_dirty (mkSolver 2 1 0) 0 0)) :=
  dirty_flag_implies_queued.2.1 (mkSolver 2 1 0) _ 0 0 (by rfl)
    (fun c r hd => by simp [mkSolver] at hd)

/-- Oracle used by the C5 counterexample. -/
def c5field : Oracle := fun _ _ => some 0

/-- The state after marking cell `(0,0)` of a fresh `2 × 1` solver dirty
twice: two queue entries, one set flag. -/
def c5s0 : SolverState :=
  resState (mark_dirty (resState (mark_dirty (mkSolver 2 1 0) 0 0)) 0 0)

/-- The state inside the first drain iteration, after popping the last
queue entry. -/
def c5s1 : SolverState :=
  { c5s0 with dirty_queue := c5s0.dirty_queue.dropLast }

/-- The state after `check_cell` consumed the popped entry. -/
def c5s2 : SolverState := resState (check_cell c5field c5s1 0 0)

/-- C5 counterexample: during a drain, after the first pop-and-check of a
doubly-marked coordinate, its membership flag is false while a stale copy
of it still sits in the worklist — refuting the claimed "if and only if". -/
theorem dirty_queue_iff_counterexample :
    c5s0.dirty_queue = [(0, 0), (0, 0)] ∧
    c5s0.dirty_queue.getLastD (0, 0) = (0, 0) ∧
    excIsOk (check_cell c5field c5s1 0 0) = true ∧
    (0, 0) ∈ c5s2.dirty_queue ∧
    c5s2.is_dirty 0 0 = false := by
  refine ⟨by decide, by decide, by decide, by decide, by decide⟩

/-- C6 (amended): for an in-bounds, dirty cell revealed as `n ≤ 8` with
neighbour counts `(nU, nM)`, `check_cell` aborts on `assert(False)`
exactly when `hidden_mines = n - nM` exceeds `nU`; the negative case
`hidden_mines < 0` does NOT abort — it falls into the
`hidden_mines < nU` no-inference branch and returns normally with only
the dirty flag cleared. -/
theorem check_cell_invalid_state_assert {field : Oracle} {s : SolverState}
    {c r : Int} {nU nM : Nat}
    (hb : is_in_bounds s c r = true) (hd : s.is_dirty c r = true)
    (hk : s.knowledge c r ≤ 8)
    (hcnt : count_neighbours s c r = .ok (nU, nM)) :
    ((nU : Int) < (s.knowledge c r : Int) - (nM : Int) →
      check_cell field s c r = .error (.assertFail, s)) ∧
    ((s.knowledge c r : Int) - (nM : Int) < 0 →
      check_cell field s c r
        = .ok { s with is_dirty := updateFun s.is_dirty c r false }) := by
  have h100 : ¬s.knowledge c r = CELL_FLAGGED := by
    unfold CELL_FLAGGED
    omega
  have h200 : ¬s.knowledge c r = CELL_UNKNOWN := by
    unfold CELL_UNKNOWN
    omega
  have hstep : check_cell_step field s c r =
      (if (s.knowledge c r : Int) - (nM : Int) = 0 then
        sweep_unknown_neighbours field s c r
      else if (s.knowledge c r : Int) - (nM : Int) < (nU : Int) then
        .ok s
      else if (s.knowledge c r : Int) - (nM : Int) = (nU : Int) then
        flag_unknown_neighbours s c r
      else
        .error (.assertFail, s)) := by
    unfold check_cell_step
    rw [if_neg h100, if_neg h200, if_pos hk, hcnt]
  have hcc : check_cell field s c r =
      (match check_cell_step field s c r with
      | .error e => .error e
      | .ok s1 =>
        .ok { s1 with is_dirty := updateFun s1.is_dirty c r false }) := by
    unfold check_cell
    rw [if_pos hb, if_neg (by simp [hd])]
  constructor
  · intro hgt
    have hnn : (0 : Int) ≤ (nU : Int) := Int.natCast_nonneg nU
    rw [hcc, hstep, if_neg (by omega), if_neg (by omega), if_neg (by omega)]
  · intro hlt
    have hnn : (0 : Int) ≤ (nU : Int) := Int.natCast_nonneg nU
    rw [hcc, hstep, if_neg (by omega), if_pos (by omega)]

/-- Witness state for the aborting side of C6: a `1 × 1` grid whose only
cell is revealed as `8` — no neighbours at all, so `hidden_mines = 8`
exceeds the zero unknown neighbours. -/
def c6assertState : SolverState :=
  { width := 1, height := 1, number_of_mines := 0,
    knowledge := fun _ _ => 8,
    is_dirty := fun _ _ => true,
    dirty_queue := [(0, 0)] }

theorem check_cell_invalid_state_assert_witness :
    check_cell (fun _ _ => some 0) c6assertState 0 0
      = .error (.assertFail, c6assertState) :=
  (@check_cell_invalid_state_assert (fun _ _ => some 0) c6assertState 0 0 0 0
    (by decide) (by decide) (by decide) (by rfl)).1 (by decide)

/-- State refuting the negative-case half of C6: cell `(0,0)` is
`Revealed(0)` with a `Flagged` neighbour, so `hidden_mines = -1`. -/
def c6negState : SolverState :=
  { width := 2, height := 1, number_of_mines := 1,
    knowledge := fun c r =>
      if c = 0 ∧ r = 0 then 0
      else if c = 1 ∧ r = 0 then CELL_FLAGGED
      else CELL_UNKNOWN,
    is_dirty := fun c r => if c = 0 ∧ r = 0 then true else false,
    dirty_queue := [(0, 0)] }

/-- C6 counterexample: with `hidden_mines = 0 - 1 = -1 < 0`, `check_cell`
does not abort — it returns normally. -/
theorem check_cell_negative_hidden_counterexample :
    count_neighbours c6negState 0 0 = .ok (0, 1) ∧
    c6negState.knowledge 0 0 = 0 ∧
    c6negState.is_dirty 0 0 = true ∧
    excIsOk (check_cell (fun _ _ => some 0) c6negState 0 0) = true :=
  ⟨rfl, rfl, rfl, rfl⟩

/-- C7: a reveal whose oracle answer is a mine raises before any mutation:
the raised error carries the state unchanged, and the solve loop catches
it and ends the attempt as lost with exactly the pre-guess state. -/
theorem lost_on_mine_guess {field : Oracle} {picks : Nat → Nat} {fuel : Nat}
    {s : SolverState} {g : Int × Int}
    (hs : sample_random_unknown s (picks fuel) = some g)
    (hmine : field g.1 g.2 = none) :
    sweep_unknown_cell field s g.1 g.2 = .error (.explosion, s) ∧
      solve_fuel field picks (fuel + 1) s = some (.lost, s) := by
  have hmem := sample_some_mem hs
  obtain ⟨hb, hu⟩ := unknown_list_mem hmem
  have hsw : sweep_unknown_cell field s g.1 g.2
      = .error (.explosion, s) := by
    unfold sweep_unknown_cell
    rw [if_pos hb, if_pos hu, hmine]
  refine ⟨hsw, ?_⟩
  unfold solve_fuel
  simp only [hs, hsw]

/-- Oracle whose every cell is a mine, for the C7 witness. -/
def c7field : Oracle := fun _ _ => none

theorem lost_on_mine_guess_witness :
    sweep_unknown_cell c7field (mkSolver 1 1 1) 0 0
        = .error (.explosion, mkSolver 1 1 1) ∧
      solve_fuel c7field (fun _ => 0) 1 (mkSolver 1 1 1)
        = some (.lost, mkSolver 1 1 1) :=
  @lost_on_mine_guess c7field (fun _ => 0) 0 (mkSolver 1 1 1) (0, 0)
    (by rfl) (by rfl)

/-! ## The truthful board oracle and the soundness invariant

The `mineField` module is external to the repository; the oracle is
modelled from the spec: it owns a mine placement and, for a revealed cell,
either signals detonation or reports the number of mines among the
in-bounds Moore neighbours. -/

/-- Modelled from the spec: the number of mines among the in-bounds Moore
neighbours of a cell, for mine placement `mines` on a `w × h` board. -/
def mineCount (mines : Int → Int → Bool) (w h : Int) (column row : Int) :
    Nat :=
  (boardNeighbours w h column row).countP (fun y => mines y.1 y.2)

/-- Modelled from the spec: a truthful `mineField.sweep_cell` — `Detonated`
(`none`) on a mine, otherwise `SafeCount` of the neighbour-mine count. -/
def truthfulField (mines : Int → Int → Bool) (w h : Int) : Oracle :=
  fun c r => if mines c r then none else some (mineCount mines w h c r)

/-- Every knowledge value is one of the file's legal values. -/
def Valid (s : SolverState) : Prop :=
  ∀ c r, s.knowledge c r = CELL_FLAGGED ∨ s.knowledge c r = CELL_UNKNOWN ∨
    s.knowledge c r ≤ 8

/-- The engine's knowledge is sound for mine placement `mines` on a
`w × h` board: flagged cells are mines, revealed cells are mine-free and
hold the true neighbour-mine count. -/
def Sound (mines : Int → Int → Bool) (w h : Int) (s : SolverState) : Prop :=
  s.width = w ∧ s.height = h ∧
  ∀ c r, (s.knowledge c r = CELL_FLAGGED → mines c r = true) ∧
    (s.knowledge c r ≤ 8 → mines c r = false ∧
      s.knowledge c r = mineCount mines w h c r)

/-- Number of mines on the board. -/
def minesTotal (mines : Int → Int → Bool) (w h : Int) : Nat :=
  (cellList w h).countP (fun p => mines p.1 p.2)

theorem mineCount_le_8 (mines : Int → Int → Bool) (w h c r : Int) :
    mineCount mines w h c r ≤ 8 :=
  le_trans (List.countP_le_length _)
    (le_trans (List.length_filter_le _ _) (by simp [mooreOffsets]))

theorem sound_of_eq {mines : Int → Int → Bool} {w h : Int}
    {s s' : SolverState} (hS : Sound mines w h s) (hw : s'.width = s.width)
    (hh : s'.height = s.height) (hk : s'.knowledge = s.knowledge) :
    Sound mines w h s' := by
  refine ⟨hw.trans hS.1, hh.trans hS.2.1, ?_⟩
  intro c r
  rw [hk]
  exact hS.2.2 c r

theorem valid_of_eq {s s' : SolverState} (hV : Valid s)
    (hk : s'.knowledge = s.knowledge) : Valid s' := by
  intro c r
  rw [hk]
  exact hV c r

theorem sound_mkSolver (mines : Int → Int → Bool) (w h : Int) (m : Nat) :
    Sound mines w h (mkSolver w h m) := by
  refine ⟨rfl, rfl, ?_⟩
  intro c r
  constructor
  · intro hf
    simp [mkSolver, CELL_UNKNOWN, CELL_FLAGGED] at hf
  · intro h8
    simp [mkSolver, CELL_UNKNOWN] at h8

theorem valid_mkSolver (w h : Int) (m : Nat) : Valid (mkSolver w h m) := by
  intro c r
  right; left
  rfl

theorem sound_hidden_eq {mines : Int → Int → Bool} {w h : Int}
    {s : SolverState} {c r : Int} (hS : Sound mines w h s) (hV : Valid s)
    (hk : s.knowledge c r ≤ 8) :
    s.knowledge c r =
      (neighbours s c r).countP
        (fun y => s.knowledge y.1 y.2 == CELL_FLAGGED)
      + (neighbours s c r).countP (fun y =>
          (s.knowledge y.1 y.2 == CELL_UNKNOWN) && mines y.1 y.2) := by
  have hmc := (hS.2.2 c r).2 hk
  rw [hmc.2]
  unfold mineCount
  rw [← hS.1, ← hS.2.1, ← neighbours_eq_board]
  apply countP_eq_add
  intro y _
  rcases hV y.1 y.2 with hf | hu | h8
  · have hm := (hS.2.2 y.1 y.2).1 hf
    have e1 : (s.knowledge y.1 y.2 == CELL_UNKNOWN) = false := by
      rw [hf]; decide
    have e2 : (s.knowledge y.1 y.2 == CELL_FLAGGED) = true := by
      rw [hf]; decide
    simp [hm, e1, e2]
  · have e1 : (s.knowledge y.1 y.2 == CELL_UNKNOWN) = true := by
      rw [hu]; decide
    have e2 : (s.knowledge y.1 y.2 == CELL_FLAGGED) = false := by
      rw [hu]; decide
    cases hmy : mines y.1 y.2 <;> simp [e1, e2, hmy]
  · have hm := (hS.2.2 y.1 y.2).2 h8
    have e1 : (s.knowledge y.1 y.2 == CELL_UNKNOWN) = false := by
      simp only [beq_eq_false_iff_ne, ne_eq]
      unfold CELL_UNKNOWN
      omega
    have e2 : (s.knowledge y.1 y.2 == CELL_FLAGGED) = false := by
      simp only [beq_eq_false_iff_ne, ne_eq]
      unfold CELL_FLAGGED
      omega
    simp [hm.1, e1, e2]

theorem countLoop_ok_of_valid {s : SolverState} (hV : Valid s) :
    ∀ (L : List (Int × Int)) (u m : Nat),
      ∃ p, countLoop s L u m = .ok p := by
  intro L
  induction L with
  | nil => intro u m; exact ⟨(u, m), rfl⟩
  | cons y rest ih =>
    intro u m
    simp only [countLoop]
    rcases hV y.1 y.2 with hf | hu | h8
    · rw [if_pos hf]
      exact ih _ _
    · have hnf : ¬s.knowledge y.1 y.2 = CELL_FLAGGED := by
        rw [hu]; unfold CELL_FLAGGED CELL_UNKNOWN; omega
      rw [if_neg hnf, if_pos hu]
      exact ih _ _
    · have hnf : ¬s.knowledge y.1 y.2 = CELL_FLAGGED := by
        unfold CELL_FLAGGED; omega
      have hnu : ¬s.knowledge y.1 y.2 = CELL_UNKNOWN := by
        unfold CELL_UNKNOWN; omega
      rw [if_neg hnf, if_neg hnu, if_pos h8]
      exact ih _ _

theorem count_neighbours_ok_of_valid {s : SolverState} {c r : Int}
    (hV : Valid s) (hb : is_in_bounds s c r = true) :
    ∃ p, count_neighbours s c r = .ok p := by
  unfold count_neighbours
  rw [if_pos hb]
  exact countLoop_ok_of_valid hV _ 0 0

theorem markDirtyList_ok_of_bounds :
    ∀ (L : List (Int × Int)) (s : SolverState),
      (∀ y ∈ L, is_in_bounds s y.1 y.2 = true) →
      ∃ s', markDirtyList s L = .ok s' := by
  intro L
  induction L with
  | nil => intro s _; exact ⟨s, rfl⟩
  | cons y rest ih =>
    intro s hb
    have hmk : mark_dirty s y.1 y.2 = .ok
        { s with is_dirty := updateFun s.is_dirty y.1 y.2 true,
                 dirty_queue := s.dirty_queue ++ [(y.1, y.2)] } := by
      unfold mark_dirty
      rw [if_pos (hb y (List.mem_cons_self y rest))]
    obtain ⟨s', h⟩ := ih
      { s with is_dirty := updateFun s.is_dirty y.1 y.2 true,
               dirty_queue := s.dirty_queue ++ [(y.1, y.2)] }
      (fun z hz => hb z (List.mem_cons_of_mem _ hz))
    refine ⟨s', ?_⟩
    simp only [markDirtyList, hmk]
    exact h

theorem mark_neighbourhood_ok_of_bounds {s : SolverState} {c r : Int}
    (hb : is_in_bounds s c r = true) :
    ∃ s', mark_neighbourhood_dirty s c r = .ok s' := by
  unfold mark_neighbourhood_dirty
  rw [if_pos hb]
  have hmk : mark_dirty s c r = .ok
      { s with is_dirty := updateFun s.is_dirty c r true,
               dirty_queue := s.dirty_queue ++ [(c, r)] } := by
    unfold mark_dirty
    rw [if_pos hb]
  obtain ⟨s', h⟩ := markDirtyList_ok_of_bounds _ _
    (fun z hz => mem_neighbours_bounds hz)
  refine ⟨s', ?_⟩
  simp only [hmk]
  exact h

theorem sweep_truthful_ok {mines : Int → Int → Bool} {w h : Int}
    {s : SolverState} {c r : Int} (hS : Sound mines w h s) (hV : Valid s)
    (hb : is_in_bounds s c r = true)
    (hu : s.knowledge c r = CELL_UNKNOWN) (hnm : mines c r = false) :
    ∃ s', sweep_unknown_cell (truthfulField mines w h) s c r = .ok s' ∧
      Sound mines w h s' ∧ Valid s' := by
  have hf : truthfulField mines w h c r
      = some (mineCount mines w h c r) := by
    unfold truthfulField
    rw [hnm]
    rfl
  have hb1 : is_in_bounds
      { s with knowledge :=
        updateFun s.knowledge c r (mineCount mines w h c r) } c r
      = true := hb
  obtain ⟨s', hmk⟩ := mark_neighbourhood_ok_of_bounds hb1
  have hknow := mark_neighbourhood_dirty_knowledge
    { s with knowledge :=
      updateFun s.knowledge c r (mineCount mines w h c r) } c r
  rw [hmk] at hknow
  simp only [resState] at hknow
  have hst := steps_mark_neighbourhood_dirty
    { s with knowledge :=
      updateFun s.knowledge c r (mineCount mines w h c r) } c r
  rw [hmk] at hst
  simp only [resState] at hst
  have hw' : s'.width = s.width := hst.1.1
  have hh' : s'.height = s.height := hst.1.2.1
  refine ⟨s', ?_, ?_, ?_⟩
  · unfold sweep_unknown_cell
    rw [if_pos hb, if_pos hu, hf]
    exact hmk
  · refine ⟨hw'.trans hS.1, hh'.trans hS.2.1, ?_⟩
    intro c' r'
    rw [hknow]
    by_cases hc : c' = c ∧ r' = r
    · obtain ⟨rfl, rfl⟩ := hc
      rw [updateFun_same]
      constructor
      · intro habs
        have := mineCount_le_8 mines w h c' r'
        unfold CELL_FLAGGED at habs
        omega
      · intro _
        exact ⟨hnm, rfl⟩
    · rw [updateFun_other _ _ _ _ _ _ hc]
      exact hS.2.2 c' r'
  · intro c' r'
    rw [hknow]
    by_cases hc : c' = c ∧ r' = r
    · obtain ⟨rfl, rfl⟩ := hc
      rw [updateFun_same]
      right; right
      exact mineCount_le_8 mines w h c' r'
    · rw [updateFun_other _ _ _ _ _ _ hc]
      exact hV c' r'

theorem flag_truthful_ok {mines : Int → Int → Bool} {w h : Int}
    {s : SolverState} {c r : Int} (hS : Sound mines w h s) (hV : Valid s)
    (hb : is_in_bounds s c r = true)
    (hu : s.knowledge c r = CELL_UNKNOWN) (hm : mines c r = true) :
    ∃ s', flag_unknown_cell s c r = .ok s' ∧
      Sound mines w h s' ∧ Valid s' := by
  have hb1 : is_in_bounds
      { s with knowledge := updateFun s.knowledge c r CELL_FLAGGED } c r
      = true := hb
  obtain ⟨s', hmk⟩ := mark_neighbourhood_ok_of_bounds hb1
  have hknow := mark_neighbourhood_dirty_knowledge
    { s with knowledge := updateFun s.knowledge c r CELL_FLAGGED } c r
  rw [hmk] at hknow
  simp only [resState] at hknow
  have hst := steps_mark_neighbourhood_dirty
    { s with knowledge := updateFun s.knowledge c r CELL_FLAGGED } c r
  rw [hmk] at hst
  simp only [resState] at hst
  have hw' : s'.width = s.width := hst.1.1
  have hh' : s'.height = s.height := hst.1.2.1
  refine ⟨s', ?_, ?_, ?_⟩
  · unfold flag_unknown_cell
    rw [if_pos hb, if_pos hu]
    exact hmk
  · refine ⟨hw'.trans hS.1, hh'.trans hS.2.1, ?_⟩
    intro c' r'
    rw [hknow]
    by_cases hc : c' = c ∧ r' = r
    · obtain ⟨rfl, rfl⟩ := hc
      rw [updateFun_same]
      constructor
      · intro _
        exact hm
      · intro habs
        unfold CELL_FLAGGED at habs
        omega
    · rw [updateFun_other _ _ _ _ _ _ hc]
      exact hS.2.2 c' r'
  · intro c' r'
    rw [hknow]
    by_cases hc : c' = c ∧ r' = r
    · obtain ⟨rfl, rfl⟩ := hc
      rw [updateFun_same]
      left
      rfl
    · rw [updateFun_other _ _ _ _ _ _ hc]
      exact hV c' r'

theorem sweepList_sound {mines : Int → Int → Bool} {w h : Int} :
    ∀ (L : List (Int × Int)) (s : SolverState), Sound mines w h s →
      Valid s →
      (∀ y ∈ L, is_in_bounds s y.1 y.2 = true) →
      (∀ y ∈ L, s.knowledge y.1 y.2 = CELL_UNKNOWN →
        mines y.1 y.2 = false) →
      ∃ s', sweepList (truthfulField mines w h) s L = .ok s' ∧
        Sound mines w h s' ∧ Valid s' := by
  intro L
  induction L with
  | nil => intro s hS hV _ _; exact ⟨s, rfl, hS, hV⟩
  | cons y rest ih =>
    intro s hS hV hbnd hsafe
    simp only [sweepList]
    by_cases hu : s.knowledge y.1 y.2 = CELL_UNKNOWN
    · rw [if_pos hu]
      obtain ⟨s1, hsw, hS1, hV1⟩ := sweep_truthful_ok hS hV
        (hbnd y (by simp)) hu (hsafe y (by simp) hu)
      obtain ⟨_, _, v, hfv, hk1⟩ := sweep_ok hsw
      have hv8 : v ≤ 8 := by
        unfold truthfulField at hfv
        split at hfv
        · cases hfv
        · cases hfv
          exact mineCount_le_8 mines w h y.1 y.2
      have hst := steps_sweep_unknown_cell (truthfulField mines w h) s
        y.1 y.2
      rw [hsw] at hst
      simp only [resState] at hst
      have hbnd1 : ∀ z ∈ rest, is_in_bounds s1 z.1 z.2 = true := by
        intro z hz
        rw [is_in_bounds_congr hst.1.1 hst.1.2.1]
        exact hbnd z (List.mem_cons_of_mem _ hz)
      have hsafe1 : ∀ z ∈ rest, s1.knowledge z.1 z.2 = CELL_UNKNOWN →
          mines z.1 z.2 = false := by
        intro z hz hkz
        rw [hk1] at hkz
        by_cases hc : z.1 = y.1 ∧ z.2 = y.2
        · rw [updateFun, if_pos hc] at hkz
          unfold CELL_UNKNOWN at hkz
          omega
        · rw [updateFun_other _ _ _ _ _ _ hc] at hkz
          exact hsafe z (List.mem_cons_of_mem _ hz) hkz
      obtain ⟨s', hrest, hS', hV'⟩ := ih s1 hS1 hV1 hbnd1 hsafe1
      refine ⟨s', ?_, hS', hV'⟩
      simp only [hsw]
      exact hrest
    · rw [if_neg hu]
      exact ih s hS hV (fun z hz => hbnd z (List.mem_cons_of_mem _ hz))
        (fun z hz => hsafe z (List.mem_cons_of_mem _ hz))

theorem flagList_sound {mines : Int → Int → Bool} {w h : Int} :
    ∀ (L : List (Int × Int)) (s : SolverState), Sound mines w h s →
      Valid s →
      (∀ y ∈ L, is_in_bounds s y.1 y.2 = true) →
      (∀ y ∈ L, s.knowledge y.1 y.2 = CELL_UNKNOWN →
        mines y.1 y.2 = true) →
      ∃ s', flagList s L = .ok s' ∧ Sound mines w h s' ∧ Valid s' := by
  intro L
  induction L with
  | nil => intro s hS hV _ _; exact ⟨s, rfl, hS, hV⟩
  | cons y rest ih =>
    intro s hS hV hbnd hmine
    simp only [flagList]
    by_cases hu : s.knowledge y.1 y.2 = CELL_UNKNOWN
    · rw [if_pos hu]
      obtain ⟨s1, hfl, hS1, hV1⟩ := flag_truthful_ok hS hV
        (hbnd y (by simp)) hu (hmine y (by simp) hu)
      obtain ⟨_, _, hk1⟩ := flag_ok hfl
      have hst := steps_flag_unknown_cell s y.1 y.2
      rw [hfl] at hst
      simp only [resState] at hst
      have hbnd1 : ∀ z ∈ rest, is_in_bounds s1 z.1 z.2 = true := by
        intro z hz
        rw [is_in_bounds_congr hst.1.1 hst.1.2.1]
        exact hbnd z (List.mem_cons_of_mem _ hz)
      have hmine1 : ∀ z ∈ rest, s1.knowledge z.1 z.2 = CELL_UNKNOWN →
          mines z.1 z.2 = true := by
        intro z hz hkz
        rw [hk1] at hkz
        by_cases hc : z.1 = y.1 ∧ z.2 = y.2
        · rw [updateFun, if_pos hc] at hkz
          unfold CELL_FLAGGED CELL_UNKNOWN at hkz
          omega
        · rw [updateFun_other _ _ _ _ _ _ hc] at hkz
          exact hmine z (List.mem_cons_of_mem _ hz) hkz
      obtain ⟨s', hrest, hS', hV'⟩ := ih s1 hS1 hV1 hbnd1 hmine1
      refine ⟨s', ?_, hS', hV'⟩
      simp only [hfl]
      exact hrest
    · rw [if_neg hu]
      exact ih s hS hV (fun z hz => hbnd z (List.mem_cons_of_mem _ hz))
        (fun z hz => hmine z (List.mem_cons_of_mem _ hz))

theorem check_cell_sound {mines : Int → Int → Bool} {w h : Int}
    {s : SolverState} {c r : Int} (hS : Sound mines w h s) (hV : Valid s)
    (hb : is_in_bounds s c r = true) :
    ∃ s', check_cell (truthfulField mines w h) s c r = .ok s' ∧
      Sound mines w h s' ∧ Valid s' := by
  unfold check_cell
  rw [if_pos hb]
  by_cases hd : s.is_dirty c r = false
  · rw [if_pos hd]
    exact ⟨s, rfl, hS, hV⟩
  · rw [if_neg hd]
    suffices hstep : ∃ s1,
        check_cell_step (truthfulField mines w h) s c r = .ok s1 ∧
          Sound mines w h s1 ∧ Valid s1 by
      obtain ⟨s1, h1, hS1, hV1⟩ := hstep
      refine ⟨{ s1 with is_dirty := updateFun s1.is_dirty c r false },
        ?_, sound_of_eq hS1 rfl rfl rfl, valid_of_eq hV1 rfl⟩
      simp only [h1]
    unfold check_cell_step
    by_cases hf : s.knowledge c r = CELL_FLAGGED
    · rw [if_pos hf]
      exact ⟨s, rfl, hS, hV⟩
    rw [if_neg hf]
    by_cases hu : s.knowledge c r = CELL_UNKNOWN
    · rw [if_pos hu]
      exact ⟨s, rfl, hS, hV⟩
    rw [if_neg hu]
    have h8 : s.knowledge c r ≤ 8 := by
      rcases hV c r with hx | hx | hx
      · exact absurd hx hf
      · exact absurd hx hu
      · exact hx
    rw [if_pos h8]
    obtain ⟨p, hp⟩ := count_neighbours_ok_of_valid hV hb
    obtain ⟨nU, nM⟩ := p
    have hpe := count_neighbours_ok_eq hp
    have hUeq : nU = (neighbours s c r).countP
        (fun y => s.knowledge y.1 y.2 == CELL_UNKNOWN) := hpe.1
    have hMeq : nM = (neighbours s c r).countP
        (fun y => s.knowledge y.1 y.2 == CELL_FLAGGED) := hpe.2
    have hsplit := sound_hidden_eq hS hV h8
    have hUMle : (neighbours s c r).countP (fun y =>
        (s.knowledge y.1 y.2 == CELL_UNKNOWN) && mines y.1 y.2)
        ≤ (neighbours s c r).countP
          (fun y => s.knowledge y.1 y.2 == CELL_UNKNOWN) := by
      apply countP_le_of_imp
      intro a _ ha
      exact (Bool.and_eq_true _ _ |>.mp ha).1
    simp only [hp]
    by_cases h0 : (s.knowledge c r : Int) - (nM : Int) = 0
    · rw [if_pos h0]
      unfold sweep_unknown_neighbours
      rw [if_pos hb]
      have hz : (neighbours s c r).countP (fun y =>
          (s.knowledge y.1 y.2 == CELL_UNKNOWN) && mines y.1 y.2) = 0 := by
        omega
      apply sweepList_sound _ s hS hV
        (fun y hy => mem_neighbours_bounds hy)
      intro y hy hky
      have hzz := List.countP_eq_zero.mp hz y hy
      rw [hky] at hzz
      simp only [Bool.and_eq_true, not_and] at hzz
      have := hzz (by decide)
      simpa using this
    rw [if_neg h0]
    by_cases hlt : (s.knowledge c r : Int) - (nM : Int) < (nU : Int)
    · rw [if_pos hlt]
      exact ⟨s, rfl, hS, hV⟩
    rw [if_neg hlt]
    by_cases heq : (s.knowledge c r : Int) - (nM : Int) = (nU : Int)
    · rw [if_pos heq]
      unfold flag_unknown_neighbours
      rw [if_pos hb]
      apply flagList_sound _ s hS hV
        (fun y hy => mem_neighbours_bounds hy)
      intro y hy hky
      have hcle : (neighbours s c r).countP
          (fun y => s.knowledge y.1 y.2 == CELL_UNKNOWN)
          ≤ (neighbours s c r).countP (fun y =>
            (s.knowledge y.1 y.2 == CELL_UNKNOWN) && mines y.1 y.2) := by
        omega
      have hpt := countP_pointwise _ _ _
        (fun a _ ha => (Bool.and_eq_true _ _ |>.mp ha).1) hcle y hy
        (by rw [hky]; decide)
      rw [Bool.and_eq_true] at hpt
      exact hpt.2
    · exfalso
      omega

theorem process_queue_fuel_sound {mines : Int → Int → Bool} {w h : Int} :
    ∀ (fuel : Nat) (s : SolverState) (res : Exc SolverState),
      Sound mines w h s → Valid s →
      process_queue_fuel (truthfulField mines w h) fuel s = some res →
      Sound mines w h (resState res) ∧ Valid (resState res) ∧
        ∀ s'', res ≠ .error (.explosion, s'') := by
  intro fuel
  induction fuel with
  | zero => intro s res _ _ hpq; cases hpq
  | succ fuel ih =>
    intro s res hS hV hpq
    unfold process_queue_fuel at hpq
    split at hpq
    case isTrue hq =>
      split at hpq <;> cases hpq
      · exact ⟨hS, hV, fun s'' hcon => Except.noConfusion hcon⟩
      · refine ⟨hS, hV, ?_⟩
        intro s'' hcon
        simp at hcon
    case isFalse hq =>
      have hS1 : Sound mines w h
          { s with dirty_queue := s.dirty_queue.dropLast } :=
        sound_of_eq hS rfl rfl rfl
      have hV1 : Valid { s with dirty_queue := s.dirty_queue.dropLast } :=
        valid_of_eq hV rfl
      by_cases hbb : is_in_bounds
          { s with dirty_queue := s.dirty_queue.dropLast }
          (s.dirty_queue.getLastD (0, 0)).1
          (s.dirty_queue.getLastD (0, 0)).2 = true
      · obtain ⟨s2, hck, hS2, hV2⟩ := check_cell_sound hS1 hV1 hbb
        split at hpq
        case _ e heq =>
          rw [hck] at heq
          cases heq
        case _ s2' heq =>
          rw [hck] at heq
          cases heq
          exact ih _ _ hS2 hV2 hpq
      · have hcke : check_cell (truthfulField mines w h)
            { s with dirty_queue := s.dirty_queue.dropLast }
            (s.dirty_queue.getLastD (0, 0)).1
            (s.dirty_queue.getLastD (0, 0)).2
            = .error (.assertFail,
              { s with dirty_queue := s.dirty_queue.dropLast }) := by
          unfold check_cell
          rw [if_neg hbb]
        split at hpq
        case _ e heq =>
          rw [hcke] at heq
          cases heq
          cases hpq
          refine ⟨hS1, hV1, ?_⟩
          intro s'' hcon
          simp at hcon
        case _ s2' heq =>
          rw [hcke] at heq
          cases heq

/-- Under soundness, flagged cells form a subset of the mined cells, so
their count is bounded by the board's mine count. -/
theorem sound_flag_bound {mines : Int → Int → Bool} {w h : Int}
    {s : SolverState} (hS : Sound mines w h s) :
    flaggedTotal s ≤ minesTotal mines w h := by
  unfold flaggedTotal minesTotal
  rw [hS.1, hS.2.1]
  apply countP_le_of_imp
  intro a _ ha
  exact (hS.2.2 a.1 a.2).1 (by rwa [beq_iff_eq] at ha)

theorem sweep_error_state {field : Oracle} {s : SolverState} {c r : Int}
    {e : SolveErr} {s1 : SolverState}
    (h : sweep_unknown_cell field s c r = .error (e, s1)) : s1 = s := by
  unfold sweep_unknown_cell at h
  split at h
  case isTrue hb =>
    split at h
    case isTrue hu =>
      split at h
      case _ hf =>
        cases h
        rfl
      case _ v hf =>
        obtain ⟨s'', hok⟩ := mark_neighbourhood_ok_of_bounds
          (show is_in_bounds
            { s with knowledge := updateFun s.knowledge c r v } c r = true
            from hb)
        rw [hok] at h
        cases h
    case isFalse hu =>
      cases h
      rfl
  case isFalse hb =>
    cases h
    rfl

theorem sweep_truthful_preserves {mines : Int → Int → Bool} {w h : Int}
    {s : SolverState} {c r : Int} {s' : SolverState}
    (hS : Sound mines w h s) (hV : Valid s)
    (hok : sweep_unknown_cell (truthfulField mines w h) s c r = .ok s') :
    Sound mines w h s' ∧ Valid s' := by
  obtain ⟨hb, hu, v, hfv, _⟩ := sweep_ok hok
  have hnm : mines c r = false := by
    unfold truthfulField at hfv
    split at hfv
    · cases hfv
    case isFalse hx => simpa using hx
  obtain ⟨s'', hok', hS', hV'⟩ := sweep_truthful_ok hS hV hb hu hnm
  rw [hok] at hok'
  cases hok'
  exact ⟨hS', hV'⟩

theorem check_truthful_preserves {mines : Int → Int → Bool} {w h : Int}
    {s : SolverState} {c r : Int} {s' : SolverState}
    (hS : Sound mines w h s) (hV : Valid s)
    (hok : check_cell (truthfulField mines w h) s c r = .ok s') :
    Sound mines w h s' ∧ Valid s' := by
  by_cases hb : is_in_bounds s c r = true
  · obtain ⟨s'', hok', hS', hV'⟩ := check_cell_sound hS hV hb
    rw [hok] at hok'
    cases hok'
    exact ⟨hS', hV'⟩
  · exfalso
    unfold check_cell at hok
    rw [if_neg hb] at hok
    cases hok

theorem solve_fuel_sound {mines : Int → Int → Bool} {w h : Int}
    {picks : Nat → Nat} :
    ∀ (fuel : Nat) (s : SolverState) (out : Outcome) (s' : SolverState),
      Sound mines w h s → Valid s →
      solve_fuel (truthfulField mines w h) picks fuel s = some (out, s') →
      Sound mines w h s' ∧ Valid s' := by
  intro fuel
  induction fuel with
  | zero => intro s out s' _ _ hsol; cases hsol
  | succ fuel ih =>
    intro s out s' hS hV hsol
    unfold solve_fuel at hsol
    split at hsol
    · cases hsol
      exact ⟨hS, hV⟩
    case _ g hg =>
      split at hsol
      case _ s1 hsw =>
        cases hsol
        obtain rfl := sweep_error_state hsw
        exact ⟨hS, hV⟩
      case _ s1 hsw =>
        cases hsol
        obtain rfl := sweep_error_state hsw
        exact ⟨hS, hV⟩
      case _ s1 hsw =>
        have hs1 := sweep_truthful_preserves hS hV hsw
        split at hsol
        · cases hsol
        case _ e2 s2 hp =>
          cases hsol
          have := process_queue_fuel_sound _ _ _ hs1.1 hs1.2 hp
          exact ⟨this.1, this.2.1⟩
        case _ s2 hp =>
          have hs2 := process_queue_fuel_sound _ _ _ hs1.1 hs1.2 hp
          exact ih _ _ _ hs2.1 hs2.2.1 hsol

/-- C9: with a truthful oracle, the soundness invariant — every `Flagged`
cell is a real mine — holds initially and is preserved by sweeping,
checking, draining and the whole solve loop, and it bounds the number of
`Flagged` cells by the number of mines on the board; hence, whenever the
board carries at most `number_of_mines` mines, the flag count never
exceeds `number_of_mines` at any point of a solve attempt. -/
theorem flag_count_bound (mines : Int → Int → Bool) (w h : Int) (m : Nat)
    (picks : Nat → Nat) :
    (Sound mines w h (mkSolver w h m) ∧ Valid (mkSolver w h m)) ∧
    (∀ s c r s', Sound mines w h s → Valid s →
      sweep_unknown_cell (truthfulField mines w h) s c r = .ok s' →
      Sound mines w h s' ∧ Valid s') ∧
    (∀ s c r s', Sound mines w h s → Valid s →
      check_cell (truthfulField mines w h) s c r = .ok s' →
      Sound mines w h s' ∧ Valid s') ∧
    (∀ fuel s res, Sound mines w h s → Valid s →
      process_queue_fuel (truthfulField mines w h) fuel s = some res →
      Sound mines w h (resState res) ∧ Valid (resState res)) ∧
    (∀ fuel s out s', Sound mines w h s → Valid s →
      solve_fuel (truthfulField mines w h) picks fuel s
        = some (out, s') →
      Sound mines w h s' ∧ Valid s') ∧
    (∀ s, Sound mines w h s → flaggedTotal s ≤ minesTotal mines w h) ∧
    (∀ s, Sound mines w h s → minesTotal mines w h ≤ s.number_of_mines →
      flaggedTotal s ≤ s.number_of_mines) := by
  refine ⟨⟨sound_mkSolver mines w h m, valid_mkSolver w h m⟩,
    fun s c r s' hS hV hok => sweep_truthful_preserves hS hV hok,
    fun s c r s' hS hV hok => check_truthful_preserves hS hV hok,
    ?_, fun fuel s out s' hS hV hok => solve_fuel_sound fuel s out s' hS hV hok,
    fun s hS => sound_flag_bound hS,
    fun s hS hm => le_trans (sound_flag_bound hS) hm⟩
  intro fuel s res hS hV hpr
  have := process_queue_fuel_sound fuel s res hS hV hpr
  exact ⟨this.1, this.2.1⟩

theorem flag_count_bound_witness :
    flaggedTotal (mkSolver 1 1 0) ≤ (mkSolver 1 1 0).number_of_mines :=
  (flag_count_bound (fun _ _ => false) 1 1 0
      (fun _ => 0)).2.2.2.2.2.2 (mkSolver 1 1 0)
    (sound_mkSolver (fun _ _ => false) 1 1 0) (by decide)

/-- C10: with a truthful oracle and sound, valid knowledge, `check_cell`
always returns normally (in particular it never sweeps a mine), and the
drain loop never raises `ExplosionException`: any result it produces is
not an explosion — the only reveal that can detonate is the random guess
in the solve loop. -/
theorem process_queue_no_explosion {mines : Int → Int → Bool} {w h : Int}
    {s : SolverState} (hS : Sound mines w h s) (hV : Valid s) :
    (∀ c r, is_in_bounds s c r = true →
      ∃ s', check_cell (truthfulField mines w h) s c r = .ok s') ∧
    (∀ fuel res,
      process_queue_fuel (truthfulField mines w h) fuel s = some res →
      ∀ s'', res ≠ .error (.explosion, s'')) := by
  constructor
  · intro c r hb
    obtain ⟨s', hok, _, _⟩ := check_cell_sound hS hV hb
    exact ⟨s', hok⟩
  · intro fuel res hpr
    exact (process_queue_fuel_sound fuel s res hS hV hpr).2.2

theorem process_queue_no_explosion_witness :
    ∃ s', check_cell (truthfulField (fun _ _ => false) 1 1)
      (mkSolver 1 1 0) 0 0 = .ok s' :=
  (process_queue_no_explosion (sound_mkSolver (fun _ _ => false) 1 1 0)
    (valid_mkSolver 1 1 0)).1 0 0 (by decide)

end Minesweeper
